import Mathlib

/-!
Verification development for the dataflux client core: the `RangeSplitter`
(`range_splitter.py`), the compose/download/decompose engine (`download.py`)
and the `ListWorker` page filter (`fast_list.py`).

Python strings are modeled as `List Char`; Python's lexicographic string
comparison is `strLtB`.  Machine integers are `ℕ`/`ℤ` (Python ints are
unbounded, so no wrap-around modeling is needed).  Functions that can raise
or diverge return `Option`; the unbounded `for i in count(0)` search of
`string_to_minimal_int_range` takes an explicit fuel argument, with `none`
meaning the search is still running after `fuel` iterations.
-/

namespace Dataflux

/-- Python strings, as lists of characters. -/
abbrev Str := List Char

/-- Python's `<` on strings: lexicographic comparison of the character lists. -/
def strLtB : Str → Str → Bool
  | [], [] => false
  | [], _ :: _ => true
  | _ :: _, [] => false
  | a :: as, b :: bs => if a < b then true else if b < a then false else strLtB as bs

/-! ## range_splitter.py -/

/-- The mutable state of a `RangeSplitter`.  The source stores three fields:
`sorted_alphabet`, `alphabet_map` (char → index, rebuilt from the sorted
alphabet whenever it is rebuilt, realised here by `alphaIdx`), and
`alphabet_set`.  `alphabet_set` is assigned once in `__init__`
(`set(sorted_alphabet)`) and — crucially — `add_characters_to_alphabet` never
updates it, so after the first growth it diverges from `sorted_alphabet`; it
is kept here as the list of its elements. -/
structure RangeSplitter where
  sorted_alphabet : List Char
  alphabet_set : List Char
deriving DecidableEq

/-- `alphabet_map[c]`: the index of `c` in the sorted alphabet.  The source
dict raises `KeyError` for an unknown character; this total model returns the
list length in that case, which no flow treated by the claims reaches
(`add_characters_to_alphabet` runs first and the padding defaults are
alphabet members). -/
def alphaIdx (alpha : List Char) (c : Char) : ℕ := alpha.indexOf c

/-- `get_char_or_default` from the source.  The index is a loop counter,
hence `ℕ` (the source's negative-index branch is unreachable from the loops). -/
def get_char_or_default (characters : Str) (index : ℕ) (default_char : Char) : Char :=
  characters.getD index default_char

/-- `sorted_alphabet[0]`, the smallest character (the alphabet is nonempty in
every splitter built by `new_rangesplitter`; the default is irrelevant). -/
def smallestChar (rs : RangeSplitter) : Char := rs.sorted_alphabet.getD 0 'a'

/-- `sorted_alphabet[-1]`, the largest character. -/
def largestChar (rs : RangeSplitter) : Char := rs.sorted_alphabet.getLastD 'a'

/-- `is_range_equal_with_padding`: the loop returns `False` at the first
differing padded position, else `True`; equivalently, all positions up to the
longer length agree. -/
def is_range_equal_with_padding (rs : RangeSplitter) (start_range end_range : Str) : Bool :=
  if end_range.length = 0 then false
  else
    (List.range (max start_range.length end_range.length)).all fun i =>
      get_char_or_default start_range i (smallestChar rs) ==
        get_char_or_default end_range i (smallestChar rs)

/-- `add_characters_to_alphabet`.  The source compares `len(alphabet_set ∪
set(characters))` with `len(alphabet_set)`: since the union contains
`alphabet_set`, the sizes differ exactly when some character lies outside
`alphabet_set` — the *construction-time* set, which this method never
updates.  When they differ it overwrites `sorted_alphabet` with
`sorted(alphabet_set ∪ set(characters))` — dropping any characters of the
current `sorted_alphabet` outside that union — and rebuilds `alphabet_map`;
`dedup` yields the union's elements and `insertionSort` the ascending order
Python's `sorted` produces.  `alphabet_set` itself is left as it was. -/
def add_characters_to_alphabet (rs : RangeSplitter) (characters : Str) : RangeSplitter :=
  if characters.all (fun c => c ∈ rs.alphabet_set) then rs
  else { rs with
    sorted_alphabet := ((rs.alphabet_set ++ characters).dedup).insertionSort (· ≤ ·) }

/-- Result record of `string_to_minimal_int_range`. -/
structure MinimalIntRange where
  start_int : ℕ
  end_int : ℕ
  min_len : ℕ
deriving DecidableEq

/-- Argument record of `generate_splits`. -/
structure GenerateSplitsOpts where
  min_int_range : MinimalIntRange
  num_splits : ℤ
  start_range : Str
  end_range : Str

/-- The digit contributed at position `i` when a range string is read as a
base-`|alphabet|` numeral, padded on the right with `dflt`. -/
def digitIdx (alpha : List Char) (s : Str) (dflt : Char) (i : ℕ) : ℕ :=
  alphaIdx alpha (get_char_or_default s i dflt)

/-- The value of the first `L` digits of `s` (padded with `dflt`) read as a
base-`|alphabet|` numeral, exactly as the loop of
`string_to_minimal_int_range` accumulates it. -/
def rangeInt (alpha : List Char) (s : Str) (dflt : Char) : ℕ → ℕ
  | 0 => 0
  | L + 1 => rangeInt alpha s dflt L * alpha.length + digitIdx alpha s dflt L

/-- The `for i in count(0)` loop of `string_to_minimal_int_range`:
accumulators `sInt`, `eInt` hold the readings of the first `i` digits; the
loop returns as soon as their difference exceeds `num_splits`.  `fuel` bounds
the number of remaining iterations (`none` = still searching). -/
def stmirGo (alpha : List Char) (s e : Str) (sDef eDef : Char) (num_splits : ℤ) :
    ℕ → ℕ → ℕ → ℕ → Option MinimalIntRange
  | 0, _, _, _ => none
  | fuel + 1, i, sInt, eInt =>
    let sInt' := sInt * alpha.length + digitIdx alpha s sDef i
    let eInt' := eInt * alpha.length + digitIdx alpha e eDef i
    if num_splits < (eInt' : ℤ) - (sInt' : ℤ) then some ⟨sInt', eInt', i + 1⟩
    else stmirGo alpha s e sDef eDef num_splits fuel (i + 1) sInt' eInt'

/-- `string_to_minimal_int_range`.  `end_default_char` is the smallest
character unless `end_range` is empty, in which case it is the largest. -/
def string_to_minimal_int_range (rs : RangeSplitter) (start_range end_range : Str)
    (num_splits : ℤ) (fuel : ℕ) : Option MinimalIntRange :=
  let end_default_char := if end_range.length = 0 then largestChar rs else smallestChar rs
  stmirGo rs.sorted_alphabet start_range end_range (smallestChar rs) end_default_char
    num_splits fuel 0 0 0

/-- The digit-extraction loop of `int_to_string`: repeatedly take
`split_point % len(alphabet)` as an index into the sorted alphabet and divide.
Python's `%` and `//` are Euclidean for the positive modulus used here, hence
`Int.emod`/`Int.ediv`. -/
def intToStrGo (alpha : List Char) : ℤ → ℕ → List Char
  | _, 0 => []
  | sp, len + 1 =>
    alpha.getD (Int.emod sp alpha.length).toNat 'a' ::
      intToStrGo alpha (Int.ediv sp alpha.length) len

/-- `int_to_string`: the loop assembles the digits least-significant first and
the source reverses the final string. -/
def int_to_string (rs : RangeSplitter) (split_point : ℤ) (string_len : ℕ) : Str :=
  (intToStrGo rs.sorted_alphabet split_point string_len).reverse

/-- Bit length of `n` computed with structural fuel (`bitLen` below supplies
`n` itself, far more than the `log₂ n + 1` steps used). -/
def bitLenGo : ℕ → ℕ → ℕ
  | 0, _ => 0
  | fuel + 1, n => if n = 0 then 0 else bitLenGo fuel (n / 2) + 1

/-- The bit length of `n`: `0` for `0`, else `⌊log₂ n⌋ + 1`. -/
def bitLen (n : ℕ) : ℕ := bitLenGo n n

/-- Round `a / b` (`b > 0`) to the nearest integer, ties to even — the
rounding IEEE-754 applies within one binade. -/
def rneDiv (a b : ℕ) : ℕ :=
  let q := a / b
  let r := a % b
  if 2 * r < b then q
  else if b < 2 * r then q + 1
  else if q % 2 = 0 then q else q + 1

/-- `⌊log₂ (a / b)⌋` for positive naturals: the bit-length difference,
corrected down by one when `a / b` falls below that power of two. -/
def qExp (a b : ℕ) : ℤ :=
  let e1 : ℤ := (bitLen a : ℤ) - (bitLen b : ℤ)
  if b * 2 ^ e1.toNat ≤ a * 2 ^ (-e1).toNat then e1 else e1 - 1

/-- The IEEE-754 binary64 value of `a / b` for positive naturals, correctly
rounded to nearest/ties-to-even, as an exact pair `(s, e)` of mantissa and
exponent — the value stands for `s · 2^(e − 52)`, with `2^52 ≤ s < 2^53` for
normal results.  `none` models the `OverflowError` Python raises when the
rounded quotient reaches `2^1024`; quotients below `2^(−1022)` round at the
fixed subnormal scale `2^(−1074)`. -/
def floatDivPos (a b : ℕ) : Option (ℕ × ℤ) :=
  let e := qExp a b
  if e < -1022 then some (rneDiv (a * 2 ^ 1074) b, -1022)
  else
    let s := if 52 ≤ e then rneDiv a (b * 2 ^ (e - 52).toNat)
      else rneDiv (a * 2 ^ (52 - e).toNat) b
    if s = 2 ^ 53 then
      if 1023 < e + 1 then none else some (2 ^ 52, e + 1)
    else if 1023 < e then none
    else some (s, e)

/-- Python's float division `a / b` on (unbounded) integers: the correctly
rounded binary64 quotient, `none` for `ZeroDivisionError` (`b = 0`) and for
`OverflowError`.  IEEE rounding is symmetric in sign, so the sign is carried
on the mantissa. -/
def floatDivZ (a b : ℤ) : Option (ℤ × ℤ) :=
  if b = 0 then none
  else if a = 0 then some (0, 0)
  else
    match floatDivPos a.natAbs b.natAbs with
    | none => none
    | some (s, e) =>
      if (0 ≤ a ∧ 0 ≤ b) ∨ (a < 0 ∧ b < 0) then some ((s : ℤ), e)
      else some (-(s : ℤ), e)

/-- Python's `int(·)` truncation toward zero of `num / den` for `den > 0`
(the Euclidean quotient is the floor; negate twice to truncate). -/
def truncDiv (num den : ℤ) : ℤ :=
  if 0 ≤ num then num / den else -((-num) / den)

/-- `int(split_point)` where `split_point = start_int + adjustment * i` and
`adjustment` is the exactified double `(s, e)` (value `s · 2^(e − 52)`): an
exact integer when `52 ≤ e`, otherwise the truncation of the exact rational
`(start·2^(52−e) + s·i) / 2^(52−e)`. -/
def splitPointVal (start : ℕ) (se : ℤ × ℤ) (i : ℕ) : ℤ :=
  if 52 ≤ se.2 then (start : ℤ) + se.1 * i * 2 ^ (se.2 - 52).toNat
  else truncDiv ((start : ℤ) * 2 ^ (52 - se.2).toNat + se.1 * i)
    (2 ^ (52 - se.2).toNat)

/-- `generate_splits`: `adjustment = Fraction(range_diff / range_interval)` —
a binary64 division made exact, `none` when it raises — then for `i` in
`1..num_splits` convert the candidate integer back to a `min_len`-digit
string and keep it when it is nonempty, strictly above `start_range` and
(unless `end_range` is empty) strictly below `end_range`.  The loop appends
exactly when the condition holds, so it is a `filter` of the mapped
candidates. -/
def generate_splits (rs : RangeSplitter) (opts : GenerateSplitsOpts) : Option (List Str) :=
  match floatDivZ ((opts.min_int_range.end_int : ℤ) - (opts.min_int_range.start_int : ℤ))
      (opts.num_splits + 1) with
  | none => none
  | some se =>
    some (((List.range opts.num_splits.toNat).map fun j =>
        int_to_string rs (splitPointVal opts.min_int_range.start_int se (j + 1))
          opts.min_int_range.min_len).filter
      fun ss =>
        (decide (0 < ss.length) && strLtB opts.start_range ss) &&
          (decide (opts.end_range.length = 0) ||
            (decide (0 < ss.length) && strLtB ss opts.end_range)))

/-- `split_range`.  The pair returned is (state of the splitter when control
leaves the function, result); `none` stands for an exception — `ValueError`
when `num_splits < 1` (before any mutation), the float errors of
`generate_splits` — or for a minimal-int-range search still running after
`fuel` iterations (both after the alphabet mutation). -/
def split_range (rs : RangeSplitter) (start_range end_range : Str) (num_splits : ℤ)
    (fuel : ℕ) : RangeSplitter × Option (List Str) :=
  if num_splits < 1 then (rs, none)
  else if end_range.length ≠ 0 ∧ strLtB start_range end_range = false then (rs, some [])
  else if is_range_equal_with_padding rs start_range end_range then (rs, some [])
  else
    let rs' := add_characters_to_alphabet rs (start_range ++ end_range)
    match string_to_minimal_int_range rs' start_range end_range num_splits fuel with
    | none => (rs', none)
    | some mir =>
      match generate_splits rs' ⟨mir, num_splits, start_range, end_range⟩ with
      | none => (rs', none)
      | some pts => (rs', some pts)

/-- `new_rangesplitter`: rejects an empty alphabet, sorts the characters;
`alphabet_set = set(sorted_alphabet)` holds the same characters. -/
def new_rangesplitter (alphabet : Str) : Option RangeSplitter :=
  if alphabet.length = 0 then none
  else some ⟨alphabet.insertionSort (· ≤ ·), alphabet.insertionSort (· ≤ ·)⟩

/-! ## download.py -/

/-- Object contents, a sequence of bytes (the byte values never matter). -/
abbrev Bytes := List ℕ

/-- An object descriptor `(name, size)` as produced by listing. -/
abbrev ObjDesc := Str × ℕ

/-- The bucket, modeled from the object-store interface of the spec: a map
from object name to contents, `none` when no such object exists. -/
abbrev Store := Str → Option Bytes

def COMPOSED_PREFIX : Str := "dataflux-composed-objects/".toList

def MAX_NUM_OBJECTS_TO_COMPOSE : ℕ := 32

/-- `download_single`: `blob.download_as_bytes`, failing when absent. -/
def download_single (st : Store) (object_name : Str) : Option Bytes := st object_name

/-- Read the contents of every source object, failing if any is absent (the
source's `destination.compose(sources)` fails on a missing source). -/
def fetchAll (st : Store) : List ObjDesc → Option (List Bytes)
  | [] => some []
  | o :: rest =>
    match st o.1, fetchAll st rest with
    | some b, some bs => some (b :: bs)
    | _, _ => none

/-- `compose`: rejects more than 32 sources, otherwise writes the
concatenation of the sources' stored bytes to the destination.  The store
semantics (server-side concatenation in order) is the interface behaviour
described in the spec and mirrored by the repository's `fake_gcs` test double. -/
def compose (st : Store) (destination_blob_name : Str) (objects : List ObjDesc) :
    Option Store :=
  if MAX_NUM_OBJECTS_TO_COMPOSE < objects.length then none
  else
    match fetchAll st objects with
    | none => none
    | some contents =>
        some fun n => if n = destination_blob_name then some contents.flatten else st n

/-- The slicing loop of `decompose`: cursor `start`, slice
`content[start : start + size]`. -/
def decomposeSlices (content : Bytes) : List ObjDesc → ℕ → List Bytes
  | [], _ => []
  | o :: rest, start => (content.drop start).take o.2 :: decomposeSlices content rest (start + o.2)

/-- Total declared size of a descriptor list. -/
def sizeSum (objects : List ObjDesc) : ℕ := (objects.map fun o => o.2).sum

/-- `decompose`: download the composite, slice it by the declared sizes.  The
`Bool` records whether the mismatch error was logged (`start != len(content)`
after the loop); the slices are returned either way and nothing is raised. -/
def decompose (st : Store) (composite_object_name : Str) (objects : List ObjDesc) :
    Option (List Bytes × Bool) :=
  match download_single st composite_object_name with
  | none => none
  | some content =>
      some (decomposeSlices content objects 0, decide (sizeSum objects ≠ content.length))

/-- `composed_object.delete()`. -/
def delete_object (st : Store) (n : Str) : Store := fun m => if m = n then none else st m

/-- The inner batch-accumulation loop of `dataflux_download`:
`while i < len(objects) and curr_size <= max and len(slice) < 32` — the check
uses the cumulative size of the objects already admitted, so the object that
pushes the total past the threshold is itself admitted.  Returns
(objects_slice, remaining objects). -/
def composeSlice (max_size : ℕ) : List ObjDesc → ℕ → ℕ → List ObjDesc × List ObjDesc
  | [], _, _ => ([], [])
  | o :: rest, curr_size, count =>
    if curr_size ≤ max_size ∧ count < MAX_NUM_OBJECTS_TO_COMPOSE then
      let p := composeSlice max_size rest (curr_size + o.2) (count + 1)
      (o :: p.1, p.2)
    else ([], o :: rest)

/-- The while loop of `dataflux_download`.  `uuids` models the stream of
`uuid.uuid4()` draws and `ctr` indexes the next draw; `fuel` bounds the
number of outer iterations (every iteration consumes at least one object, so
`fuel = length` suffices — see `dataflux_download`).  Store reads or a
too-large compose fail the whole run (`none`), matching the exceptions the
source lets escape.  The composite is deleted after decomposition; a delete
failure is only logged in the source and cannot occur in this store model. -/
def dfGo (uuids : ℕ → Str) (max_size : ℕ) :
    ℕ → Store → ℕ → List ObjDesc → Option (Store × List Bytes)
  | _, st, _, [] => some (st, [])
  | 0, _, _, _ :: _ => none
  | fuel + 1, st, ctr, o :: rest =>
    if max_size < o.2 then
      match download_single st o.1 with
      | none => none
      | some content =>
          match dfGo uuids max_size fuel st ctr rest with
          | none => none
          | some (st2, res) => some (st2, content :: res)
    else
      let slice := o :: (composeSlice max_size rest o.2 1).1
      let r := (composeSlice max_size rest o.2 1).2
      if slice.length = 1 then
        match download_single st o.1 with
        | none => none
        | some content =>
            match dfGo uuids max_size fuel st ctr r with
            | none => none
            | some (st2, res) => some (st2, content :: res)
      else
        match compose st (COMPOSED_PREFIX ++ uuids ctr) slice with
        | none => none
        | some st1 =>
            match decompose st1 (COMPOSED_PREFIX ++ uuids ctr) slice with
            | none => none
            | some (parts, _logged) =>
                match dfGo uuids max_size fuel (delete_object st1 (COMPOSED_PREFIX ++ uuids ctr))
                    (ctr + 1) r with
                | none => none
                | some (st2, res) => some (st2, parts ++ res)

/-- `dataflux_download`: the loop with enough fuel for its own input (every
iteration consumes at least one object), drawing uuids from index 0 on. -/
def dataflux_download (uuids : ℕ → Str) (st : Store) (max_composite_object_size : ℕ)
    (objects : List ObjDesc) : Option (Store × List Bytes) :=
  dfGo uuids max_composite_object_size objects.length st 0 objects

/-- The batch skeleton of `dataflux_download`'s while loop: the successive
`objects_slice`s (with a too-large object standing alone), in order. -/
def batchGo (max_size : ℕ) : ℕ → List ObjDesc → List (List ObjDesc)
  | _, [] => []
  | 0, _ :: _ => []
  | fuel + 1, o :: rest =>
    if max_size < o.2 then [o] :: batchGo max_size fuel rest
    else
      (o :: (composeSlice max_size rest o.2 1).1) ::
        batchGo max_size fuel (composeSlice max_size rest o.2 1).2

/-- The batches `dataflux_download` forms on a given input. -/
def dfBatches (max_size : ℕ) (objects : List ObjDesc) : List (List ObjDesc) :=
  batchGo max_size objects.length objects

/-- `math.ceil(n / t)` for the nonnegative ints of
`dataflux_download_threaded` (`t ≥ 1` there; the source's float division is
exact for every feasible list length). -/
def pyCeilDiv (n t : ℕ) : ℕ := (n + t - 1) / t

/-- The chunking of `dataflux_download_threaded`: `objects[i*cs:(i+1)*cs]`
for `i in range(threads)`, keeping the nonempty chunks. -/
def mkChunks (objects : List ObjDesc) (threads : ℕ) : List (List ObjDesc) :=
  ((List.range threads).map fun i =>
      (objects.drop (i * pyCeilDiv objects.length threads)).take
        (pyCeilDiv objects.length threads)).filter
    fun c => !c.isEmpty

/-- One `df_download_thread` per chunk, each running `dataflux_download` on
its chunk; the threads share the bucket, modeled here as the sequential
composition the claims prescribe (each chunk's engine run starts its own
uuid draws at 0, as `uuid.uuid4()` is fresh per call). -/
def runChunksGo (uuids : ℕ → Str) (max_size : ℕ) :
    Store → List (List ObjDesc) → Option (Store × List (List Bytes))
  | st, [] => some (st, [])
  | st, c :: cs =>
    match dataflux_download uuids st max_size c with
    | none => none
    | some (st1, res) =>
        match runChunksGo uuids max_size st1 cs with
        | none => none
        | some (st2, ress) => some (st2, res :: ress)

/-- `dataflux_download_threaded`: chunk, run the engine per chunk, drain the
per-chunk queues in chunk-start order. -/
def dataflux_download_threaded (uuids : ℕ → Str) (st : Store) (max_size : ℕ)
    (objects : List ObjDesc) (threads : ℕ) : Option (Store × List Bytes) :=
  match runChunksGo uuids max_size st (mkChunks objects threads) with
  | none => none
  | some (st2, ress) => some (st2, ress.flatten)

/-! ## fast_list.py -/

/-- A blob as returned by one `list_blobs` page. -/
structure GCSBlob where
  name : Str
  size : ℕ
  storage_class : Str

/-- The `ListWorker` fields the page loop consults.  `pre` is the worker's
caller-supplied listing prefix (attribute `prefix` in the source). -/
structure ListWorkerCfg where
  skip_compose : Bool
  list_directory_objects : Bool
  allowed_storage_classes : List Str
  max_results : ℕ
  pre : Str

/-- The `remove_prefix` helper of `fast_list.py` (renamed): strip `lead` from
the front of `text` when present. -/
def removeLead (text lead : Str) : Str :=
  if lead.isPrefixOf text then text.drop lead.length else text

/-- The admission test of the page loop of `ListWorker.run`:
`(not skip_compose or not name.startswith(COMPOSED_PREFIX)) and
(list_directory_objects or name[-1] != "/") and storage_class in allowed`.
`name[-1]` is the last character; on an empty name the source raises inside
the page `try` (the claims assume nonempty blob names, as GCS guarantees). -/
def blobIncluded (cfg : ListWorkerCfg) (b : GCSBlob) : Bool :=
  ((!cfg.skip_compose) || !(COMPOSED_PREFIX.isPrefixOf b.name)) &&
    (cfg.list_directory_objects || decide (b.name.getLast? ≠ some '/')) &&
    decide (b.storage_class ∈ cfg.allowed_storage_classes)

/-- The `for blob in blobs` page loop: add `(name, size)` to the result set
when admitted, advance `start_range` to the prefix-stripped name, and break
once `max_results` blobs have been consumed.  The result set is modeled as a
duplicate-free list (`List.insert`). -/
def pageScanGo (cfg : ListWorkerCfg) :
    List GCSBlob → ℕ → List (Str × ℕ) → Str → List (Str × ℕ) × Str
  | [], _, results, start_range => (results, start_range)
  | b :: rest, i, results, start_range =>
    let results' := if blobIncluded cfg b then List.insert (b.name, b.size) results else results
    let start_range' := removeLead b.name cfg.pre
    if i + 1 = cfg.max_results then (results', start_range')
    else pageScanGo cfg rest (i + 1) results' start_range'

/-- One page scan, starting from a result set and a current start range. -/
def pageScan (cfg : ListWorkerCfg) (blobs : List GCSBlob) (results : List (Str × ℕ))
    (start_range : Str) : List (Str × ℕ) × Str :=
  pageScanGo cfg blobs 0 results start_range

/-! ## Analysis helpers (not source functions) -/

/-- The bytes actually stored for a descriptor (`[]` if absent; the claims
assume presence, under which the default is never consulted). -/
def objContent (st : Store) (o : ObjDesc) : Bytes := (st o.1).getD []

/-- `intToStrGo` specialised to the nonnegative integers `int_to_string`
receives from `split_range`; used to relate digit extraction to `ℕ`
arithmetic (`intToStrGo_natCast` below). -/
def natStrGo (alpha : List Char) : ℕ → ℕ → List Char
  | _, 0 => []
  | v, L + 1 => alpha.getD (v % alpha.length) 'a' :: natStrGo alpha (v / alpha.length) L

/-! ## Alphabet lemmas -/

theorem mem_add_characters (rs : RangeSplitter) (cs : Str)
    (h : ¬(cs.all fun c => c ∈ rs.alphabet_set) = true) (c : Char) :
    c ∈ (add_characters_to_alphabet rs cs).sorted_alphabet ↔
      c ∈ rs.alphabet_set ∨ c ∈ cs := by
  unfold add_characters_to_alphabet
  rw [if_neg h]
  rw [(List.perm_insertionSort (· ≤ ·) ((rs.alphabet_set ++ cs).dedup)).mem_iff,
    List.mem_dedup, List.mem_append]

theorem add_characters_set (rs : RangeSplitter) (cs : Str) :
    (add_characters_to_alphabet rs cs).alphabet_set = rs.alphabet_set := by
  unfold add_characters_to_alphabet
  split <;> rfl

theorem mem_add_characters_of_set (rs : RangeSplitter) (cs : Str) (c : Char)
    (hinv : ∀ x ∈ rs.alphabet_set, x ∈ rs.sorted_alphabet)
    (hc : c ∈ rs.alphabet_set) :
    c ∈ (add_characters_to_alphabet rs cs).sorted_alphabet := by
  unfold add_characters_to_alphabet
  split
  · exact hinv c hc
  · rw [(List.perm_insertionSort (· ≤ ·) ((rs.alphabet_set ++ cs).dedup)).mem_iff,
      List.mem_dedup, List.mem_append]
    exact Or.inl hc

theorem sorted_add_characters (rs : RangeSplitter) (cs : Str)
    (hs : List.Sorted (· < ·) rs.sorted_alphabet) :
    List.Sorted (· < ·) (add_characters_to_alphabet rs cs).sorted_alphabet := by
  unfold add_characters_to_alphabet
  split
  · exact hs
  · exact (List.sorted_insertionSort (· ≤ ·) _).lt_of_le
      ((List.perm_insertionSort (· ≤ ·) _).nodup_iff.mpr (List.nodup_dedup _))

/-- The splitter state `split_range` leaves behind: unchanged on the
`ValueError` and early-`[]` paths, the result of
`add_characters_to_alphabet` otherwise. -/
theorem split_range_fst (rs : RangeSplitter) (s e : Str) (n : ℤ) (fuel : ℕ) :
    (split_range rs s e n fuel).1 =
      if 1 ≤ n ∧ (e.length = 0 ∨ strLtB s e = true) ∧
          is_range_equal_with_padding rs s e = false
      then add_characters_to_alphabet rs (s ++ e) else rs := by
  unfold split_range
  by_cases h1 : n < 1
  · rw [if_pos h1, if_neg]
    rintro ⟨hn, -⟩; omega
  by_cases h2 : e.length ≠ 0 ∧ strLtB s e = false
  · rw [if_neg h1, if_pos h2, if_neg]
    rintro ⟨-, hor, -⟩
    rcases hor with h | h
    · exact h2.1 h
    · rw [h] at h2; cases h2.2
  by_cases h3 : is_range_equal_with_padding rs s e = true
  · rw [if_neg h1, if_neg h2, if_pos h3, if_neg]
    rintro ⟨-, -, hf⟩
    rw [h3] at hf; cases hf
  · have hcp : 1 ≤ n ∧ (e.length = 0 ∨ strLtB s e = true) ∧
        is_range_equal_with_padding rs s e = false := by
      refine ⟨by omega, ?_, by simpa using h3⟩
      by_cases he : e.length = 0
      · exact Or.inl he
      · cases hb : strLtB s e
        · exact absurd ⟨he, hb⟩ h2
        · exact Or.inr rfl
    rw [if_neg h1, if_neg h2, if_neg h3, if_pos hcp]
    cases h : string_to_minimal_int_range (add_characters_to_alphabet rs (s ++ e)) s e n fuel with
    | none => simp only [h]
    | some mir =>
      simp only [h]
      cases hg : generate_splits (add_characters_to_alphabet rs (s ++ e)) ⟨mir, n, s, e⟩ <;>
        simp only [hg]

/-! ## C8: how the alphabet really evolves across calls -/

/-- Claim C8, corrected: the alphabet does *not* only grow.
`add_characters_to_alphabet` unions the incoming characters into
`alphabet_set`, which is fixed at construction and never updated, so every
call leaves `alphabet_set` unchanged; a call whose characters all lie in that
construction-time set leaves `sorted_alphabet` unchanged, while any other
guard-passing call rebuilds `sorted_alphabet` as exactly the construction-time
characters plus the characters of this call's `start ++ end` — dropping
whatever earlier calls had added (see `C8_counterexample`).  The
construction-time characters themselves are never lost (under the
constructor-established invariant `alphabet_set ⊆ sorted_alphabet`). -/
theorem C8_alphabet_update (rs : RangeSplitter) (s e : Str) (n : ℤ) (fuel : ℕ)
    (hinv : ∀ c ∈ rs.alphabet_set, c ∈ rs.sorted_alphabet) :
    (split_range rs s e n fuel).1.alphabet_set = rs.alphabet_set ∧
    (∀ c ∈ rs.alphabet_set, c ∈ (split_range rs s e n fuel).1.sorted_alphabet) ∧
    ((split_range rs s e n fuel).1.sorted_alphabet = rs.sorted_alphabet ∨
      ∀ c, c ∈ (split_range rs s e n fuel).1.sorted_alphabet ↔
        c ∈ rs.alphabet_set ∨ c ∈ s ++ e) := by
  rw [split_range_fst]
  split
  · refine ⟨add_characters_set rs (s ++ e), ?_, ?_⟩
    · exact fun c hc => mem_add_characters_of_set rs (s ++ e) c hinv hc
    · by_cases hall : ((s ++ e).all fun c => c ∈ rs.alphabet_set) = true
      · left
        unfold add_characters_to_alphabet
        rw [if_pos hall]
      · exact Or.inr (mem_add_characters rs (s ++ e) hall)
  · exact ⟨rfl, hinv, Or.inl rfl⟩

/-- Witness for C8 at a concrete growing call on the freshly constructed
splitter `{a, b}`: the set stays `{a, b}`, its characters survive, and the
alphabet becomes exactly `{a, b} ∪ {c, d}`. -/
theorem C8_witness :
    (split_range ⟨['a', 'b'], ['a', 'b']⟩ ['c'] ['d'] 1 2).1.alphabet_set =
      (⟨['a', 'b'], ['a', 'b']⟩ : RangeSplitter).alphabet_set ∧
    (∀ c ∈ (⟨['a', 'b'], ['a', 'b']⟩ : RangeSplitter).alphabet_set,
      c ∈ (split_range ⟨['a', 'b'], ['a', 'b']⟩ ['c'] ['d'] 1 2).1.sorted_alphabet) ∧
    ((split_range ⟨['a', 'b'], ['a', 'b']⟩ ['c'] ['d'] 1 2).1.sorted_alphabet =
        (⟨['a', 'b'], ['a', 'b']⟩ : RangeSplitter).sorted_alphabet ∨
      ∀ c, c ∈ (split_range ⟨['a', 'b'], ['a', 'b']⟩ ['c'] ['d'] 1 2).1.sorted_alphabet ↔
        c ∈ (⟨['a', 'b'], ['a', 'b']⟩ : RangeSplitter).alphabet_set ∨
          c ∈ (['c'] ++ ['d'] : Str)) :=
  C8_alphabet_update ⟨['a', 'b'], ['a', 'b']⟩ ['c'] ['d'] 1 2 (by decide)

/-- Counterexample to C8 as stated: starting from the alphabet `{a, b}`,
`split_range "c" "d" 1` grows the alphabet to `{a, b, c, d}`, but the
following `split_range "e" "f" 1` rebuilds it from the never-updated
construction-time set as `{a, b, e, f}` — the character `c` present before
that call is lost, so the set after the call is not a superset of the set
before it. -/
theorem C8_counterexample :
    'c' ∈ (split_range ⟨['a', 'b'], ['a', 'b']⟩ ['c'] ['d'] 1 2).1.sorted_alphabet ∧
    'c' ∉ (split_range (split_range ⟨['a', 'b'], ['a', 'b']⟩ ['c'] ['d'] 1 2).1
      ['e'] ['f'] 1 2).1.sorted_alphabet ∧
    (split_range (split_range ⟨['a', 'b'], ['a', 'b']⟩ ['c'] ['d'] 1 2).1
      ['e'] ['f'] 1 2).1.sorted_alphabet = ['a', 'b', 'e', 'f'] := by decide

/-! ## C7: the ListWorker page filter -/

theorem isPrefixOf_iff_exists_append :
    ∀ (p l : List Char), p.isPrefixOf l = true ↔ ∃ t, l = p ++ t := by
  intro p
  induction p with
  | nil => intro l; simp [List.isPrefixOf]
  | cons a as ih =>
    intro l
    cases l with
    | nil => simp [List.isPrefixOf]
    | cons b bs =>
      simp only [List.isPrefixOf, Bool.and_eq_true, beq_iff_eq, ih]
      constructor
      · rintro ⟨rfl, t, rfl⟩; exact ⟨t, rfl⟩
      · rintro ⟨t, ht⟩
        injection ht with h1 h2
        exact ⟨h1.symm, t, h2⟩

theorem getLast?_eq_some_iff_append (l : List Char) (c : Char) :
    l.getLast? = some c ↔ ∃ t, l = t ++ [c] := by
  induction l with
  | nil =>
    simp only [List.getLast?]
    constructor
    · intro h; cases h
    · rintro ⟨t, ht⟩; cases t <;> cases ht
  | cons a m ih =>
    cases m with
    | nil =>
      have hsing : [a].getLast? = some a := rfl
      rw [hsing]
      constructor
      · intro h
        injection h with h
        exact ⟨[], by simp [h]⟩
      · rintro ⟨t, ht⟩
        cases t with
        | nil => injection ht with h1 _; rw [h1]
        | cons x xs =>
          injection ht with _ h2
          exact absurd h2.symm (by simp)
    | cons b m' =>
      rw [List.getLast?_cons_cons, ih]
      constructor
      · rintro ⟨t, ht⟩; exact ⟨a :: t, by rw [ht]; rfl⟩
      · rintro ⟨t, ht⟩
        cases t with
        | nil => injection ht with _ h2; cases h2
        | cons x xs =>
          injection ht with _ h2
          exact ⟨xs, h2⟩

/-- The page-loop admission test, in terms of the three spec conditions.
(The source evaluates `name[-1]` only for nonempty names; GCS names are
nonempty, and the surrounding claims carry that hypothesis.) -/
theorem blobIncluded_iff (cfg : ListWorkerCfg) (b : GCSBlob) :
    blobIncluded cfg b = true ↔
      (b.storage_class ∈ cfg.allowed_storage_classes ∧
       (cfg.list_directory_objects = true ∨ ¬ ∃ t, b.name = t ++ ['/']) ∧
       (cfg.skip_compose = false ∨ ¬ ∃ t, b.name = COMPOSED_PREFIX ++ t)) := by
  unfold blobIncluded
  simp only [Bool.and_eq_true, Bool.or_eq_true, Bool.not_eq_true', decide_eq_true_eq]
  constructor
  · rintro ⟨⟨hc, hd⟩, hs⟩
    refine ⟨hs, ?_, ?_⟩
    · rcases hd with hd | hd
      · exact Or.inl hd
      · exact Or.inr fun hex => hd ((getLast?_eq_some_iff_append b.name '/').mpr hex)
    · rcases hc with hc | hc
      · exact Or.inl hc
      · refine Or.inr fun hex => ?_
        rw [(isPrefixOf_iff_exists_append COMPOSED_PREFIX b.name).mpr hex] at hc
        cases hc
  · rintro ⟨hs, hd, hc⟩
    refine ⟨⟨?_, ?_⟩, hs⟩
    · rcases hc with hc | hc
      · exact Or.inl hc
      · right
        cases hp : COMPOSED_PREFIX.isPrefixOf b.name
        · rfl
        · exact absurd ((isPrefixOf_iff_exists_append _ _).mp hp) hc
    · rcases hd with hd | hd
      · exact Or.inl hd
      · exact Or.inr fun hl => hd ((getLast?_eq_some_iff_append b.name '/').mp hl)

theorem pageScanGo_mem (cfg : ListWorkerCfg) :
    ∀ (blobs : List GCSBlob) (i : ℕ) (results : List (Str × ℕ)) (sr : Str) (p : Str × ℕ),
      blobs.length + i ≤ cfg.max_results →
      (p ∈ (pageScanGo cfg blobs i results sr).1 ↔
        p ∈ results ∨ ∃ b ∈ blobs, (b.name, b.size) = p ∧ blobIncluded cfg b = true) := by
  intro blobs
  induction blobs with
  | nil => intro i results sr p _; simp [pageScanGo]
  | cons b rest ih =>
    intro i results sr p hlen
    have hlen' : rest.length + (i + 1) ≤ cfg.max_results := by
      simp only [List.length_cons] at hlen; omega
    have hone : ∀ (res : List (Str × ℕ)),
        p ∈ (if blobIncluded cfg b = true then List.insert (b.name, b.size) res else res) ↔
          (p ∈ res ∨ ((b.name, b.size) = p ∧ blobIncluded cfg b = true)) := by
      intro res
      by_cases hb : blobIncluded cfg b = true
      · rw [if_pos hb, List.mem_insert_iff]
        constructor
        · rintro (rfl | h)
          · exact Or.inr ⟨rfl, hb⟩
          · exact Or.inl h
        · rintro (h | ⟨rfl, -⟩)
          · exact Or.inr h
          · exact Or.inl rfl
      · rw [if_neg hb]
        constructor
        · exact Or.inl
        · rintro (h | ⟨-, hbt⟩)
          · exact h
          · exact absurd hbt hb
    simp only [pageScanGo, List.exists_mem_cons_iff]
    by_cases hstop : i + 1 = cfg.max_results
    · have hre : rest = [] := by
        have : rest.length = 0 := by simp only [List.length_cons] at hlen; omega
        exact List.eq_nil_of_length_eq_zero this
      subst hre
      rw [if_pos hstop]
      dsimp only
      rw [hone results]
      simp only [List.not_mem_nil, false_and, exists_false, or_false]
    · rw [if_neg hstop, ih (i + 1) _ _ p hlen', hone results]
      all_goals tauto

/-- Claim C7: during a page scan, `ListWorker` adds a returned blob's
`(name, size)` to its result set iff the blob's storage class is allowed AND
(directory objects are allowed OR the name does not end in `/`) AND
(composites are allowed OR the name does not begin with the reserved
composite object name lead-in).  Stated for pages within the `max_results`
cap (the store's page contract) and nonempty blob names (GCS invariant;
`name[-1]` raises on an empty name). -/
theorem C7_page_filter (cfg : ListWorkerCfg) (blobs : List GCSBlob)
    (results : List (Str × ℕ)) (sr : Str) (p : Str × ℕ)
    (hlen : blobs.length ≤ cfg.max_results) (hname : ∀ b ∈ blobs, b.name ≠ []) :
    p ∈ (pageScan cfg blobs results sr).1 ↔
      p ∈ results ∨ ∃ b ∈ blobs, (b.name, b.size) = p ∧
        (b.storage_class ∈ cfg.allowed_storage_classes ∧
         (cfg.list_directory_objects = true ∨ ¬ ∃ t, b.name = t ++ ['/']) ∧
         (cfg.skip_compose = false ∨ ¬ ∃ t, b.name = COMPOSED_PREFIX ++ t)) := by
  have hx := hname
  rw [pageScan, pageScanGo_mem cfg blobs 0 results sr p (by simpa using hlen)]
  refine or_congr Iff.rfl ⟨?_, ?_⟩
  · rintro ⟨b, hb, hps, hinc⟩
    exact ⟨b, hb, hps, (blobIncluded_iff cfg b).mp hinc⟩
  · rintro ⟨b, hb, hps, hcond⟩
    exact ⟨b, hb, hps, (blobIncluded_iff cfg b).mpr hcond⟩

/-- Witness for C7: a one-blob page on the default worker configuration. -/
theorem C7_witness :
    (['x'], 3) ∈ (pageScan ⟨true, false, [['S']], 5000, []⟩ [⟨['x'], 3, ['S']⟩] [] []).1 ↔
      (['x'], 3) ∈ ([] : List (Str × ℕ)) ∨ ∃ b ∈ [(⟨['x'], 3, ['S']⟩ : GCSBlob)],
        (b.name, b.size) = (['x'], 3) ∧
        (b.storage_class ∈ [['S']] ∧
         (false = true ∨ ¬ ∃ t, b.name = t ++ ['/']) ∧
         (true = false ∨ ¬ ∃ t, b.name = COMPOSED_PREFIX ++ t)) :=
  C7_page_filter ⟨true, false, [['S']], 5000, []⟩ [⟨['x'], 3, ['S']⟩] [] [] (['x'], 3)
    (by decide) (by decide)

/-! ## C5: decompose slicing -/

theorem sizeSum_nil : sizeSum [] = 0 := rfl

theorem sizeSum_cons (o : ObjDesc) (l : List ObjDesc) :
    sizeSum (o :: l) = o.2 + sizeSum l := by
  simp [sizeSum]

theorem decomposeSlices_length (content : Bytes) :
    ∀ (objs : List ObjDesc) (start : ℕ),
      (decomposeSlices content objs start).length = objs.length := by
  intro objs
  induction objs with
  | nil => intro start; rfl
  | cons o rest ih => intro start; simp [decomposeSlices, ih]

theorem decomposeSlices_getD (content : Bytes) :
    ∀ (objs : List ObjDesc) (start i : ℕ) (hi : i < objs.length),
      (decomposeSlices content objs start).getD i [] =
        (content.drop (start + sizeSum (objs.take i))).take ((objs.get ⟨i, hi⟩).2) := by
  intro objs
  induction objs with
  | nil => intro start i hi; exact absurd hi (Nat.not_lt_zero i)
  | cons o rest ih =>
    intro start i hi
    cases i with
    | zero => simp [decomposeSlices, sizeSum]
    | succ j =>
      have hj : j < rest.length := by simpa using Nat.lt_of_succ_lt_succ hi
      simp only [decomposeSlices, List.getD_cons_succ]
      rw [ih (start + o.2) j hj]
      simp [List.take_succ_cons, sizeSum_cons, Nat.add_assoc]

/-- Claim C5: `decompose` downloads the composite and slices it by the
declared sizes in order — the `i`-th slice is
`content[Σ sizes[0..i) : Σ sizes[0..i) + sizes[i]]` — and when the declared
total differs from the downloaded length it logs an error (the `Bool` in the
model) but still returns the slices; nothing is raised. -/
theorem C5_decompose (st : Store) (composite_object_name : Str) (objs : List ObjDesc)
    (content : Bytes) (h : st composite_object_name = some content) :
    ∃ slices logged, decompose st composite_object_name objs = some (slices, logged) ∧
      slices.length = objs.length ∧
      (∀ i (hi : i < objs.length),
        slices.getD i [] =
          (content.drop (sizeSum (objs.take i))).take ((objs.get ⟨i, hi⟩).2)) ∧
      (logged = true ↔ sizeSum objs ≠ content.length) := by
  refine ⟨decomposeSlices content objs 0, decide (sizeSum objs ≠ content.length), ?_, ?_, ?_, ?_⟩
  · unfold decompose download_single
    rw [h]
  · exact decomposeSlices_length content objs 0
  · intro i hi
    simpa using decomposeSlices_getD content objs 0 i hi
  · exact decide_eq_true_iff

/-- Witness for C5 at a concrete composite of sizes 2 + 3 = 5 bytes. -/
theorem C5_witness :
    ∃ slices logged,
      decompose (fun n => if n = ['z'] then some [1, 2, 3, 4, 5] else none) ['z']
          [(['u'], 2), (['v'], 3)] = some (slices, logged) ∧
      slices.length = ([(['u'], 2), (['v'], 3)] : List ObjDesc).length ∧
      (∀ i (hi : i < ([(['u'], 2), (['v'], 3)] : List ObjDesc).length),
        slices.getD i [] =
          (([1, 2, 3, 4, 5] : Bytes).drop
              (sizeSum (([(['u'], 2), (['v'], 3)] : List ObjDesc).take i))).take
            ((([(['u'], 2), (['v'], 3)] : List ObjDesc).get ⟨i, hi⟩).2)) ∧
      (logged = true ↔ sizeSum [(['u'], 2), (['v'], 3)] = 5 → False) :=
  C5_decompose (fun n => if n = ['z'] then some [1, 2, 3, 4, 5] else none) ['z']
    [(['u'], 2), (['v'], 3)] [1, 2, 3, 4, 5] (by simp)

/-! ## C3: batch formation -/

theorem composeSlice_append (max_size : ℕ) :
    ∀ (l : List ObjDesc) (curr cnt : ℕ),
      (composeSlice max_size l curr cnt).1 ++ (composeSlice max_size l curr cnt).2 = l := by
  intro l
  induction l with
  | nil => intro curr cnt; rfl
  | cons o rest ih =>
    intro curr cnt
    simp only [composeSlice]
    split
    · simpa using ih (curr + o.2) (cnt + 1)
    · rfl

theorem composeSlice_snd_length (max_size : ℕ) (l : List ObjDesc) (curr cnt : ℕ) :
    (composeSlice max_size l curr cnt).2.length ≤ l.length := by
  conv_rhs => rw [← composeSlice_append max_size l curr cnt]
  rw [List.length_append]
  omega

theorem composeSlice_admitted (max_size : ℕ) :
    ∀ (l : List ObjDesc) (curr cnt j : ℕ), j < (composeSlice max_size l curr cnt).1.length →
      curr + sizeSum ((composeSlice max_size l curr cnt).1.take j) ≤ max_size ∧
        cnt + j < MAX_NUM_OBJECTS_TO_COMPOSE := by
  intro l
  induction l with
  | nil => intro curr cnt j hj; simp [composeSlice] at hj
  | cons o rest ih =>
    intro curr cnt j hj
    by_cases hcond : curr ≤ max_size ∧ cnt < MAX_NUM_OBJECTS_TO_COMPOSE
    · simp only [composeSlice, if_pos hcond] at hj ⊢
      cases j with
      | zero => exact ⟨by simpa [sizeSum] using hcond.1, by omega⟩
      | succ k =>
        have hk : k < (composeSlice max_size rest (curr + o.2) (cnt + 1)).1.length := by
          simpa using Nat.lt_of_succ_lt_succ hj
        have hrec := ih (curr + o.2) (cnt + 1) k hk
        refine ⟨?_, by omega⟩
        rw [List.take_succ_cons, sizeSum_cons, ← Nat.add_assoc]
        exact hrec.1
    · simp [composeSlice, if_neg hcond] at hj

theorem composeSlice_count (max_size : ℕ) (l : List ObjDesc) (curr cnt : ℕ) :
    cnt + (composeSlice max_size l curr cnt).1.length ≤ MAX_NUM_OBJECTS_TO_COMPOSE ∨
      (composeSlice max_size l curr cnt).1.length = 0 := by
  by_cases hz : (composeSlice max_size l curr cnt).1.length = 0
  · exact Or.inr hz
  left
  by_contra hlt
  push_neg at hlt
  have hj : MAX_NUM_OBJECTS_TO_COMPOSE - cnt < (composeSlice max_size l curr cnt).1.length := by
    omega
  have := (composeSlice_admitted max_size l curr cnt _ hj).2
  omega

theorem batchGo_flatten (max_size : ℕ) :
    ∀ (fuel : ℕ) (objs : List ObjDesc), objs.length ≤ fuel →
      (batchGo max_size fuel objs).flatten = objs := by
  intro fuel
  induction fuel with
  | zero =>
    intro objs h
    have : objs = [] := List.eq_nil_of_length_eq_zero (by omega)
    subst this; rfl
  | succ f ih =>
    intro objs h
    cases objs with
    | nil => rfl
    | cons o rest =>
      have hr : rest.length ≤ f := by simpa using h
      simp only [batchGo]
      split
      · rw [List.flatten_cons, ih rest hr]; rfl
      · have h2 : (composeSlice max_size rest o.2 1).2.length ≤ f :=
          le_trans (composeSlice_snd_length _ _ _ _) hr
        rw [List.flatten_cons, ih _ h2, List.cons_append, composeSlice_append]

theorem batchGo_mem (max_size : ℕ) :
    ∀ (fuel : ℕ) (objs : List ObjDesc), objs.length ≤ fuel →
      ∀ b ∈ batchGo max_size fuel objs, ∃ o t, b = o :: t ∧
        (max_size < o.2 → b = [o]) ∧
        (o.2 ≤ max_size →
          ∀ j < b.length, sizeSum (b.take j) ≤ max_size ∧ j < MAX_NUM_OBJECTS_TO_COMPOSE) := by
  intro fuel
  induction fuel with
  | zero =>
    intro objs h b hb
    have : objs = [] := List.eq_nil_of_length_eq_zero (by omega)
    subst this; simp [batchGo] at hb
  | succ f ih =>
    intro objs h b hb
    cases objs with
    | nil => simp [batchGo] at hb
    | cons o rest =>
      have hr : rest.length ≤ f := by simpa using h
      simp only [batchGo] at hb
      by_cases hbig : max_size < o.2
      · rw [if_pos hbig] at hb
        rcases List.mem_cons.mp hb with rfl | hmem
        · exact ⟨o, [], rfl, fun _ => rfl, fun hle => absurd hbig (by omega)⟩
        · exact ih rest hr b hmem
      · rw [if_neg hbig] at hb
        rcases List.mem_cons.mp hb with rfl | hmem
        · refine ⟨o, _, rfl, fun hgt => absurd hgt hbig, fun hle j hj => ?_⟩
          cases j with
          | zero =>
            refine ⟨by simp [sizeSum], by norm_num [MAX_NUM_OBJECTS_TO_COMPOSE]⟩
          | succ k =>
            have hk : k < (composeSlice max_size rest o.2 1).1.length := by
              simpa using Nat.lt_of_succ_lt_succ hj
            have hrec := composeSlice_admitted max_size rest o.2 1 k hk
            refine ⟨?_, by omega⟩
            rw [List.take_succ_cons, sizeSum_cons]
            omega
        · have h2 : (composeSlice max_size rest o.2 1).2.length ≤ f :=
            le_trans (composeSlice_snd_length _ _ _ _) hr
          exact ih _ h2 b hmem

/-- Claim C3 (amended): when `dataflux_download` reaches an object no larger
than `max_composite_size` it forms a batch by admitting successive objects
while the cumulative size of the objects already admitted is
`≤ max_composite_size` and the batch holds fewer than 32 members; the
object that first makes the cumulative size *strictly exceed* the threshold
is admitted and ends the batch, while an object that makes it exactly equal
is admitted and does not end the batch; an object larger than the threshold
stands alone.  (The original claim said the batch ends with the object that
first makes the total *meet or exceed* the threshold; on exact equality the
loop admits further objects — see `C3_counterexample`.) -/
theorem C3_batch_formation (max_size : ℕ) (objs : List ObjDesc) :
    (dfBatches max_size objs).flatten = objs ∧
    ∀ b ∈ dfBatches max_size objs, ∃ o t, b = o :: t ∧
      (max_size < o.2 → b = [o]) ∧
      (o.2 ≤ max_size →
        (∀ j < b.length, sizeSum (b.take j) ≤ max_size ∧ j < MAX_NUM_OBJECTS_TO_COMPOSE) ∧
        (∀ j, j + 1 ≤ b.length → max_size < sizeSum (b.take (j + 1)) → b.length = j + 1)) := by
  refine ⟨batchGo_flatten max_size objs.length objs le_rfl, fun b hb => ?_⟩
  obtain ⟨o, t, rfl, hbig, hadm⟩ := batchGo_mem max_size objs.length objs le_rfl b hb
  refine ⟨o, t, rfl, hbig, fun hle => ⟨hadm hle, fun j hj hgt => ?_⟩⟩
  by_contra hne
  have hlt : j + 1 < (o :: t).length := by omega
  have := (hadm hle (j + 1) hlt).1
  omega

/-- Witness for C3 at the boundary input `[5, 5, 3]` with threshold 10. -/
theorem C3_witness :
    ∃ o t, ([(['a'], 5), (['b'], 5), (['c'], 3)] : List ObjDesc) = o :: t ∧
      ((10 : ℕ) < o.2 → [(['a'], 5), (['b'], 5), (['c'], 3)] = [o]) ∧
      (o.2 ≤ 10 →
        (∀ j < ([(['a'], 5), (['b'], 5), (['c'], 3)] : List ObjDesc).length,
          sizeSum (([(['a'], 5), (['b'], 5), (['c'], 3)] : List ObjDesc).take j) ≤ 10 ∧
            j < MAX_NUM_OBJECTS_TO_COMPOSE) ∧
        (∀ j, j + 1 ≤ ([(['a'], 5), (['b'], 5), (['c'], 3)] : List ObjDesc).length →
          10 < sizeSum (([(['a'], 5), (['b'], 5), (['c'], 3)] : List ObjDesc).take (j + 1)) →
          ([(['a'], 5), (['b'], 5), (['c'], 3)] : List ObjDesc).length = j + 1)) :=
  (C3_batch_formation 10 [(['a'], 5), (['b'], 5), (['c'], 3)]).2
    [(['a'], 5), (['b'], 5), (['c'], 3)] (by decide)

/-- Counterexample to C3 as stated: with threshold 10 and sizes `[5, 5, 3]`
the second object makes the cumulative size meet the threshold exactly
(`5 + 5 = 10 ≤ 10`), yet the batch does not end with it — the loop admits
the third object as well, producing one batch of three. -/
theorem C3_counterexample :
    dfBatches 10 [(['a'], 5), (['b'], 5), (['c'], 3)] =
      [[(['a'], 5), (['b'], 5), (['c'], 3)]] ∧
    sizeSum [(['a'], 5), (['b'], 5)] = 10 ∧
    ([(['a'], 5), (['b'], 5), (['c'], 3)] : List ObjDesc).length = 3 := by decide

/-! ## C1, C4: the download engine -/

theorem fetchAll_eq_map (st : Store) :
    ∀ (objs : List ObjDesc), (∀ o ∈ objs, ∃ b, st o.1 = some b) →
      fetchAll st objs = some (objs.map (objContent st)) := by
  intro objs
  induction objs with
  | nil => intro _; rfl
  | cons o rest ih =>
    intro h
    obtain ⟨b, hb⟩ := h o (List.mem_cons_self o rest)
    simp only [fetchAll, hb, ih fun x hx => h x (List.mem_cons_of_mem _ hx)]
    simp [objContent, hb]

theorem decomposeSlices_roundtrip (f : ObjDesc → Bytes) :
    ∀ (objs : List ObjDesc) (pre : Bytes), (∀ o ∈ objs, (f o).length = o.2) →
      decomposeSlices (pre ++ (objs.map f).flatten) objs pre.length = objs.map f := by
  intro objs
  induction objs with
  | nil => intro pre _; rfl
  | cons o rest ih =>
    intro pre h
    have h1 : (f o).length = o.2 := h o (List.mem_cons_self o rest)
    have hsh : pre ++ (f o ++ (rest.map f).flatten) =
        (pre ++ f o) ++ (rest.map f).flatten := by rw [List.append_assoc]
    have hlen : pre.length + o.2 = (pre ++ f o).length := by
      rw [List.length_append, h1]
    simp only [decomposeSlices, List.map_cons, List.flatten_cons]
    rw [List.drop_left,
      show List.take o.2 (f o ++ (rest.map f).flatten) = f o from by
        rw [← h1, List.take_left],
      hsh, hlen, ih (pre ++ f o) fun x hx => h x (List.mem_cons_of_mem _ hx)]

/-- Main engine lemma: with every named object present at its declared size
and the composite names fresh, `dfGo` returns one payload per descriptor, in
order, each equal to the stored bytes, and only composite names are touched
in the store. -/
theorem dfGo_correct (uuids : ℕ → Str) (max_size : ℕ) :
    ∀ (fuel : ℕ) (objs : List ObjDesc) (st : Store) (ctr : ℕ),
      objs.length ≤ fuel →
      (∀ o ∈ objs, ∃ b, st o.1 = some b ∧ b.length = o.2) →
      (∀ (k : ℕ), ∀ o ∈ objs, COMPOSED_PREFIX ++ uuids k ≠ o.1) →
      ∃ st2, dfGo uuids max_size fuel st ctr objs = some (st2, objs.map (objContent st)) ∧
        ∀ n, (∀ k, n ≠ COMPOSED_PREFIX ++ uuids k) → st2 n = st n := by
  intro fuel
  induction fuel with
  | zero =>
    intro objs st ctr h _ _
    have hobjs : objs = [] := List.eq_nil_of_length_eq_zero (by omega)
    subst hobjs
    exact ⟨st, rfl, fun n _ => rfl⟩
  | succ f ih =>
    intro objs st ctr h hex hfresh
    cases objs with
    | nil => exact ⟨st, rfl, fun n _ => rfl⟩
    | cons o rest =>
      have hr : rest.length ≤ f := by simpa using h
      obtain ⟨b, hb, hblen⟩ := hex o (List.mem_cons_self o rest)
      simp only [dfGo]
      by_cases hbig : max_size < o.2
      · rw [if_pos hbig]
        obtain ⟨st2, hrec, hag⟩ := ih rest st ctr hr
          (fun x hx => hex x (List.mem_cons_of_mem _ hx))
          (fun k x hx => hfresh k x (List.mem_cons_of_mem _ hx))
        refine ⟨st2, ?_, hag⟩
        simp only [download_single, hb, hrec]
        simp [objContent, hb]
      · rw [if_neg hbig]
        have happ := composeSlice_append max_size rest o.2 1
        have hr2 : (composeSlice max_size rest o.2 1).2.length ≤ f :=
          le_trans (composeSlice_snd_length _ _ _ _) hr
        have hsub1 : ∀ x ∈ (composeSlice max_size rest o.2 1).1, x ∈ rest := by
          intro x hx; rw [← happ]; exact List.mem_append.mpr (Or.inl hx)
        have hsub2 : ∀ x ∈ (composeSlice max_size rest o.2 1).2, x ∈ rest := by
          intro x hx; rw [← happ]; exact List.mem_append.mpr (Or.inr hx)
        by_cases hone : (o :: (composeSlice max_size rest o.2 1).1).length = 1
        · rw [if_pos hone]
          have hc1 : (composeSlice max_size rest o.2 1).1 = [] := by
            simpa using List.eq_nil_of_length_eq_zero (by simpa using hone)
          have hc2 : (composeSlice max_size rest o.2 1).2 = rest := by
            have happ2 := happ
            rw [hc1] at happ2
            simpa using happ2
          obtain ⟨st2, hrec, hag⟩ := ih (composeSlice max_size rest o.2 1).2 st ctr hr2
            (fun x hx => hex x (List.mem_cons_of_mem _ (hsub2 x hx)))
            (fun k x hx => hfresh k x (List.mem_cons_of_mem _ (hsub2 x hx)))
          refine ⟨st2, ?_, hag⟩
          simp only [download_single, hb, hrec]
          simp [objContent, hb, hc2]
        · rw [if_neg hone]
          have hsubsl : ∀ x ∈ o :: (composeSlice max_size rest o.2 1).1, x ∈ o :: rest := by
            intro x hx
            rcases List.mem_cons.mp hx with rfl | hx
            · exact List.mem_cons_self _ _
            · exact List.mem_cons_of_mem _ (hsub1 x hx)
          have hcnt : ¬ (MAX_NUM_OBJECTS_TO_COMPOSE <
              (o :: (composeSlice max_size rest o.2 1).1).length) := by
            rcases composeSlice_count max_size rest o.2 1 with hcb | hz
            · simp only [List.length_cons]; omega
            · simp only [List.length_cons, hz]
              norm_num [MAX_NUM_OBJECTS_TO_COMPOSE]
          have hfetch : fetchAll st (o :: (composeSlice max_size rest o.2 1).1) =
              some ((o :: (composeSlice max_size rest o.2 1).1).map (objContent st)) :=
            fetchAll_eq_map st _ fun x hx => ((hex x (hsubsl x hx)).imp fun _ hp => hp.1)
          have hcomp : compose st (COMPOSED_PREFIX ++ uuids ctr)
              (o :: (composeSlice max_size rest o.2 1).1) =
              some fun n => if n = COMPOSED_PREFIX ++ uuids ctr then
                  some (((o :: (composeSlice max_size rest o.2 1).1).map
                    (objContent st)).flatten)
                else st n := by
            unfold compose
            rw [if_neg hcnt, hfetch]
          have hlens : ∀ x ∈ o :: (composeSlice max_size rest o.2 1).1,
              (objContent st x).length = x.2 := by
            intro x hx
            obtain ⟨bx, hbx, hlx⟩ := hex x (hsubsl x hx)
            simp [objContent, hbx, hlx]
          have hslices : decomposeSlices
              (((o :: (composeSlice max_size rest o.2 1).1).map (objContent st)).flatten)
              (o :: (composeSlice max_size rest o.2 1).1) 0 =
              (o :: (composeSlice max_size rest o.2 1).1).map (objContent st) := by
            simpa using decomposeSlices_roundtrip (objContent st)
              (o :: (composeSlice max_size rest o.2 1).1) [] hlens
          have hdec : decompose
              (fun n => if n = COMPOSED_PREFIX ++ uuids ctr then
                  some (((o :: (composeSlice max_size rest o.2 1).1).map
                    (objContent st)).flatten)
                else st n)
              (COMPOSED_PREFIX ++ uuids ctr) (o :: (composeSlice max_size rest o.2 1).1) =
              some ((o :: (composeSlice max_size rest o.2 1).1).map (objContent st),
                decide (sizeSum (o :: (composeSlice max_size rest o.2 1).1) ≠
                  (((o :: (composeSlice max_size rest o.2 1).1).map
                    (objContent st)).flatten).length)) := by
            simp only [decompose, download_single, if_pos, hslices]
          have hag2 : ∀ n, n ≠ COMPOSED_PREFIX ++ uuids ctr →
              delete_object
                (fun n => if n = COMPOSED_PREFIX ++ uuids ctr then
                    some (((o :: (composeSlice max_size rest o.2 1).1).map
                      (objContent st)).flatten)
                  else st n)
                (COMPOSED_PREFIX ++ uuids ctr) n = st n := by
            intro n hn
            simp [delete_object, hn]
          have hexr : ∀ x ∈ (composeSlice max_size rest o.2 1).2,
              ∃ bx, delete_object
                (fun n => if n = COMPOSED_PREFIX ++ uuids ctr then
                    some (((o :: (composeSlice max_size rest o.2 1).1).map
                      (objContent st)).flatten)
                  else st n)
                (COMPOSED_PREFIX ++ uuids ctr) x.1 = some bx ∧ bx.length = x.2 := by
            intro x hx
            obtain ⟨bx, hbx, hlx⟩ := hex x (List.mem_cons_of_mem _ (hsub2 x hx))
            refine ⟨bx, ?_, hlx⟩
            rw [hag2 x.1 fun hq =>
              hfresh ctr x (List.mem_cons_of_mem _ (hsub2 x hx)) hq.symm]
            exact hbx
          obtain ⟨st3, hrec, hag3⟩ := ih (composeSlice max_size rest o.2 1).2
            (delete_object
              (fun n => if n = COMPOSED_PREFIX ++ uuids ctr then
                  some (((o :: (composeSlice max_size rest o.2 1).1).map
                    (objContent st)).flatten)
                else st n)
              (COMPOSED_PREFIX ++ uuids ctr)) (ctr + 1) hr2 hexr
            (fun k x hx => hfresh k x (List.mem_cons_of_mem _ (hsub2 x hx)))
          have hmapr : (composeSlice max_size rest o.2 1).2.map (objContent
              (delete_object
                (fun n => if n = COMPOSED_PREFIX ++ uuids ctr then
                    some (((o :: (composeSlice max_size rest o.2 1).1).map
                      (objContent st)).flatten)
                  else st n)
                (COMPOSED_PREFIX ++ uuids ctr))) =
              (composeSlice max_size rest o.2 1).2.map (objContent st) := by
            apply List.map_congr_left
            intro x hx
            simp only [objContent]
            rw [hag2 x.1 fun hq =>
              hfresh ctr x (List.mem_cons_of_mem _ (hsub2 x hx)) hq.symm]
          refine ⟨st3, ?_, fun n hn => (hag3 n hn).trans (hag2 n (hn ctr))⟩
          rw [hcomp]
          simp only [hdec, hrec, hmapr]
          rw [← List.map_append, List.cons_append, happ]

/-- Claim C1: with every descriptor's object present in the store at exactly
its declared size, any positive `max_composite_size`, and the drawn
composite names colliding with no object (the spec's fresh-uuid guarantee),
`dataflux_download` returns one payload per descriptor, in input order, each
equal to the object's stored bytes — hence the concatenation of the payloads
equals the concatenation of the objects' bytes in that order. -/
theorem C1_download_roundtrip (uuids : ℕ → Str) (st : Store)
    (max_composite_object_size : ℕ) (objs : List ObjDesc)
    (hmax : 0 < max_composite_object_size)
    (hex : ∀ o ∈ objs, ∃ b, st o.1 = some b ∧ b.length = o.2)
    (hfresh : ∀ k, ∀ o ∈ objs, COMPOSED_PREFIX ++ uuids k ≠ o.1) :
    ∃ st2 res, dataflux_download uuids st max_composite_object_size objs =
        some (st2, res) ∧
      res = objs.map (objContent st) ∧
      res.length = objs.length ∧
      res.flatten = (objs.map (objContent st)).flatten := by
  obtain ⟨st2, hrun, -⟩ := dfGo_correct uuids max_composite_object_size objs.length objs st 0
    le_rfl hex hfresh
  exact ⟨st2, objs.map (objContent st), hrun, rfl, by simp, rfl⟩

theorem flatten_filter_nonempty (l : List (List ObjDesc)) :
    (l.filter fun c => !c.isEmpty).flatten = l.flatten := by
  induction l with
  | nil => rfl
  | cons c cs ih => cases c <;> simp [List.filter_cons, ih]

theorem chunks_flatten (objs : List ObjDesc) (threads : ℕ) (hT : 1 ≤ threads) :
    (mkChunks objs threads).flatten = objs := by
  unfold mkChunks
  rw [flatten_filter_nonempty]
  have key : ∀ (n : ℕ) (l : List ObjDesc) (cs : ℕ),
      ((List.range n).map fun i => (l.drop (i * cs)).take cs).flatten = l.take (n * cs) := by
    intro n
    induction n with
    | zero => intro l cs; simp
    | succ m ih =>
      intro l cs
      rw [List.range_succ_eq_map]
      simp only [List.map_cons, List.map_map, List.flatten_cons, Nat.zero_mul, List.drop_zero]
      have hcomp : (List.range m).map ((fun i => (l.drop (i * cs)).take cs) ∘ Nat.succ) =
          (List.range m).map fun i => ((l.drop cs).drop (i * cs)).take cs := by
        apply List.map_congr_left
        intro i _
        simp only [Function.comp]
        rw [List.drop_drop]
        congr 1
        rw [Nat.succ_mul]
        congr 1
        omega
      rw [hcomp, ih (l.drop cs) cs, ← List.take_add]
      congr 1
      rw [Nat.succ_mul]
      omega
  rw [key]
  apply List.take_of_length_le
  simp only [pyCeilDiv]
  have h1 := Nat.div_add_mod (objs.length + threads - 1) threads
  have h2 : (objs.length + threads - 1) % threads < threads :=
    Nat.mod_lt _ (by omega)
  omega

theorem runChunksGo_correct (uuids : ℕ → Str) (max_size : ℕ) :
    ∀ (chunks : List (List ObjDesc)) (st : Store),
      (∀ o ∈ chunks.flatten, ∃ b, st o.1 = some b ∧ b.length = o.2) →
      (∀ k, ∀ o ∈ chunks.flatten, COMPOSED_PREFIX ++ uuids k ≠ o.1) →
      ∃ st2, runChunksGo uuids max_size st chunks =
          some (st2, chunks.map fun c => c.map (objContent st)) ∧
        ∀ n, (∀ k, n ≠ COMPOSED_PREFIX ++ uuids k) → st2 n = st n := by
  intro chunks
  induction chunks with
  | nil => intro st _ _; exact ⟨st, rfl, fun n _ => rfl⟩
  | cons c cs ih =>
    intro st hex hfresh
    have hmemc : ∀ o ∈ c, o ∈ (c :: cs).flatten := by
      intro o ho; rw [List.flatten_cons]; exact List.mem_append.mpr (Or.inl ho)
    have hmemcs : ∀ o ∈ cs.flatten, o ∈ (c :: cs).flatten := by
      intro o ho; rw [List.flatten_cons]; exact List.mem_append.mpr (Or.inr ho)
    obtain ⟨st1, hrun1, hag1⟩ := dfGo_correct uuids max_size c.length c st 0 le_rfl
      (fun o ho => hex o (hmemc o ho)) (fun k o ho => hfresh k o (hmemc o ho))
    have hexcs : ∀ o ∈ cs.flatten, ∃ b, st1 o.1 = some b ∧ b.length = o.2 := by
      intro o ho
      obtain ⟨b, hb, hl⟩ := hex o (hmemcs o ho)
      refine ⟨b, ?_, hl⟩
      rw [hag1 o.1 fun k hq => hfresh k o (hmemcs o ho) hq.symm]
      exact hb
    obtain ⟨st2, hrun2, hag2⟩ := ih st1 hexcs
      (fun k o ho => hfresh k o (hmemcs o ho))
    have hmap : (cs.map fun c2 => c2.map (objContent st1)) =
        cs.map fun c2 => c2.map (objContent st) := by
      apply List.map_congr_left
      intro c2 hc2
      apply List.map_congr_left
      intro o ho
      have homem : o ∈ cs.flatten := by
        rw [List.mem_flatten]; exact ⟨c2, hc2, ho⟩
      simp only [objContent]
      rw [hag1 o.1 fun k hq => hfresh k o (hmemcs o homem) hq.symm]
    have hdd : dataflux_download uuids st max_size c = some (st1, c.map (objContent st)) := by
      unfold dataflux_download; exact hrun1
    refine ⟨st2, ?_, fun n hn => (hag2 n hn).trans (hag1 n hn)⟩
    simp only [runChunksGo, hdd, hrun2, hmap, List.map_cons]

/-- Claim C4: `dataflux_download_threaded` splits the input into contiguous
chunks of `ceil(n/threads)` objects, runs the single-threaded engine on each
nonempty chunk (modeled as sequential runs), concatenates the per-chunk
results in chunk-start order, and — for any `threads ≥ 1`, under the same
store hypotheses as C1 — returns exactly the payload list of the
single-threaded `dataflux_download` on the whole input. -/
theorem C4_threaded_equiv (uuids : ℕ → Str) (st : Store) (max_size : ℕ)
    (objs : List ObjDesc) (threads : ℕ) (hT : 1 ≤ threads)
    (hex : ∀ o ∈ objs, ∃ b, st o.1 = some b ∧ b.length = o.2)
    (hfresh : ∀ k, ∀ o ∈ objs, COMPOSED_PREFIX ++ uuids k ≠ o.1) :
    ∃ stt sts,
      dataflux_download_threaded uuids st max_size objs threads =
        some (stt, objs.map (objContent st)) ∧
      dataflux_download uuids st max_size objs =
        some (sts, objs.map (objContent st)) := by
  have hflat := chunks_flatten objs threads hT
  obtain ⟨stt, hrunT, -⟩ := runChunksGo_correct uuids max_size (mkChunks objs threads) st
    (by rw [hflat]; exact hex) (by rw [hflat]; exact hfresh)
  obtain ⟨sts, hrunS, -⟩ := dfGo_correct uuids max_size objs.length objs st 0 le_rfl hex hfresh
  refine ⟨stt, sts, ?_, hrunS⟩
  have hmf : ((mkChunks objs threads).map fun c => c.map (objContent st)).flatten =
      ((mkChunks objs threads).flatten).map (objContent st) := by
    rw [List.map_flatten]
  unfold dataflux_download_threaded
  rw [hrunT]
  dsimp only
  rw [hmf, hflat]

/-- Witness for C1: three objects of sizes 1, 2, 5 with threshold 2 — the
engine composes the first two and downloads the third directly. -/
theorem C1_witness :
    ∃ st2 res,
      dataflux_download (fun _ => ['u'])
          (fun n => if n = ['a'] then some [10] else if n = ['b'] then some [20, 21]
            else if n = ['x'] then some [30, 31, 32, 33, 34] else none)
          2 [(['a'], 1), (['b'], 2), (['x'], 5)] = some (st2, res) ∧
      res = ([(['a'], 1), (['b'], 2), (['x'], 5)] : List ObjDesc).map
        (objContent (fun n => if n = ['a'] then some [10] else if n = ['b'] then some [20, 21]
          else if n = ['x'] then some [30, 31, 32, 33, 34] else none)) ∧
      res.length = ([(['a'], 1), (['b'], 2), (['x'], 5)] : List ObjDesc).length ∧
      res.flatten = (([(['a'], 1), (['b'], 2), (['x'], 5)] : List ObjDesc).map
        (objContent (fun n => if n = ['a'] then some [10] else if n = ['b'] then some [20, 21]
          else if n = ['x'] then some [30, 31, 32, 33, 34] else none))).flatten :=
  C1_download_roundtrip (fun _ => ['u'])
    (fun n => if n = ['a'] then some [10] else if n = ['b'] then some [20, 21]
      else if n = ['x'] then some [30, 31, 32, 33, 34] else none)
    2 [(['a'], 1), (['b'], 2), (['x'], 5)] (by decide)
    (by
      intro o ho
      fin_cases ho
      · exact ⟨[10], rfl, rfl⟩
      · exact ⟨[20, 21], rfl, rfl⟩
      · exact ⟨[30, 31, 32, 33, 34], rfl, rfl⟩)
    (by
      intro k o ho
      fin_cases ho
      · exact (by decide : COMPOSED_PREFIX ++ ['u'] ≠ ['a'])
      · exact (by decide : COMPOSED_PREFIX ++ ['u'] ≠ ['b'])
      · exact (by decide : COMPOSED_PREFIX ++ ['u'] ≠ ['x']))

/-- Witness for C4: two objects over two threads agree with the
single-threaded run. -/
theorem C4_witness :
    ∃ stt sts,
      dataflux_download_threaded (fun _ => ['u'])
          (fun n => if n = ['a'] then some [10] else if n = ['b'] then some [20, 21] else none)
          2 [(['a'], 1), (['b'], 2)] 2 =
        some (stt, ([(['a'], 1), (['b'], 2)] : List ObjDesc).map
          (objContent
            (fun n => if n = ['a'] then some [10] else if n = ['b'] then some [20, 21]
              else none))) ∧
      dataflux_download (fun _ => ['u'])
          (fun n => if n = ['a'] then some [10] else if n = ['b'] then some [20, 21] else none)
          2 [(['a'], 1), (['b'], 2)] =
        some (sts, ([(['a'], 1), (['b'], 2)] : List ObjDesc).map
          (objContent
            (fun n => if n = ['a'] then some [10] else if n = ['b'] then some [20, 21]
              else none))) :=
  C4_threaded_equiv (fun _ => ['u'])
    (fun n => if n = ['a'] then some [10] else if n = ['b'] then some [20, 21] else none)
    2 [(['a'], 1), (['b'], 2)] 2 (by decide)
    (by
      intro o ho
      fin_cases ho
      · exact ⟨[10], rfl, rfl⟩
      · exact ⟨[20, 21], rfl, rfl⟩)
    (by
      intro k o ho
      fin_cases ho
      · exact (by decide : COMPOSED_PREFIX ++ ['u'] ≠ ['a'])
      · exact (by decide : COMPOSED_PREFIX ++ ['u'] ≠ ['b']))

/-! ## C10: int_to_string -/

theorem intToStrGo_natCast (alpha : List Char) :
    ∀ (L v : ℕ), intToStrGo alpha (v : ℤ) L = natStrGo alpha v L := by
  intro L
  induction L with
  | zero => intro v; rfl
  | succ n ih =>
    intro v
    have hmod : Int.emod (v : ℤ) (alpha.length : ℤ) = ((v % alpha.length : ℕ) : ℤ) := rfl
    have hdiv : Int.ediv (v : ℤ) (alpha.length : ℤ) = ((v / alpha.length : ℕ) : ℤ) := rfl
    simp only [intToStrGo, natStrGo, hmod, hdiv, Int.toNat_ofNat, ih]

theorem natStrGo_length (alpha : List Char) :
    ∀ (L v : ℕ), (natStrGo alpha v L).length = L := by
  intro L
  induction L with
  | zero => intro v; rfl
  | succ n ih => intro v; simp [natStrGo, ih]

theorem natStrGo_mem (alpha : List Char) :
    ∀ (L v : ℕ), v < alpha.length ^ L → ∀ c ∈ natStrGo alpha v L, c ∈ alpha := by
  intro L
  induction L with
  | zero => intro v _ c hc; cases hc
  | succ n ih =>
    intro v hv c hc
    have hk : 0 < alpha.length := by
      rcases Nat.eq_zero_or_pos alpha.length with hz | hp
      · rw [hz] at hv; simp at hv
      · exact hp
    rcases List.mem_cons.mp hc with rfl | hc
    · rw [List.getD_eq_getElem alpha 'a' (Nat.mod_lt v hk)]
      exact List.getElem_mem _
    · refine ih (v / alpha.length) ?_ c hc
      rw [Nat.div_lt_iff_lt_mul hk]
      rw [pow_succ] at hv
      exact hv

theorem getD_lt_getD (alpha : List Char) (hsort : List.Sorted (· < ·) alpha)
    {i j : ℕ} (hij : i < j) (hj : j < alpha.length) (d : Char) :
    alpha.getD i d < alpha.getD j d := by
  have hi : i < alpha.length := lt_trans hij hj
  rw [List.getD_eq_getElem alpha d hi, List.getD_eq_getElem alpha d hj]
  have := List.pairwise_iff_get.mp hsort ⟨i, hi⟩ ⟨j, hj⟩ (Fin.mk_lt_mk.mpr hij)
  simpa [List.get_eq_getElem] using this

theorem strLtB_append_left :
    ∀ (a b as bs : List Char), a.length = b.length → strLtB a b = true →
      strLtB (a ++ as) (b ++ bs) = true := by
  intro a
  induction a with
  | nil =>
    intro b as bs hl hab
    cases b with
    | nil => cases hab
    | cons y ys => cases hl
  | cons x xs ih =>
    intro b as bs hl hab
    cases b with
    | nil => cases hl
    | cons y ys =>
      simp only [strLtB, List.cons_append] at hab ⊢
      by_cases hxy : x < y
      · rw [if_pos hxy]
      · rw [if_neg hxy] at hab ⊢
        by_cases hyx : y < x
        · rw [if_pos hyx] at hab; cases hab
        · rw [if_neg hyx] at hab ⊢
          exact ih ys as bs (by simpa using hl) hab

theorem strLtB_append_last :
    ∀ (cpre : List Char) (x y : Char), x < y →
      strLtB (cpre ++ [x]) (cpre ++ [y]) = true := by
  intro cpre
  induction cpre with
  | nil => intro x y hxy; simp [strLtB, hxy]
  | cons c cs ih =>
    intro x y hxy
    have hred : strLtB ((c :: cs) ++ [x]) ((c :: cs) ++ [y]) =
        strLtB (cs ++ [x]) (cs ++ [y]) := by
      simp [strLtB]
    rw [hred]
    exact ih x y hxy

theorem natStr_lt (alpha : List Char) (hsort : List.Sorted (· < ·) alpha) :
    ∀ (L v w : ℕ), v < w → w < alpha.length ^ L →
      strLtB (natStrGo alpha v L).reverse (natStrGo alpha w L).reverse = true := by
  intro L
  induction L with
  | zero =>
    intro v w hvw hw
    simp only [pow_zero, Nat.lt_one_iff] at hw
    omega
  | succ n ih =>
    intro v w hvw hw
    have hk : 0 < alpha.length := by
      rcases Nat.eq_zero_or_pos alpha.length with hz | hp
      · rw [hz] at hw; simp at hw
      · exact hp
    simp only [natStrGo, List.reverse_cons]
    rcases Nat.lt_or_ge (v / alpha.length) (w / alpha.length) with hq | hq
    · refine strLtB_append_left _ _ _ _ ?_ ?_
      · simp [natStrGo_length]
      · refine ih (v / alpha.length) (w / alpha.length) hq ?_
        rw [Nat.div_lt_iff_lt_mul hk]
        rw [pow_succ] at hw
        exact hw
    · have hqe : v / alpha.length = w / alpha.length :=
        le_antisymm (Nat.div_le_div_right (le_of_lt hvw)) hq
      have hv1 := Nat.div_add_mod v alpha.length
      have hw1 := Nat.div_add_mod w alpha.length
      rw [hqe] at hv1
      have hmod : v % alpha.length < w % alpha.length := by omega
      rw [hqe]
      exact strLtB_append_last _ _ _
        (getD_lt_getD alpha hsort hmod (Nat.mod_lt w hk) 'a')

/-- Strict monotonicity of `int_to_string` for a fixed width. -/
theorem int_to_string_lt (rs : RangeSplitter)
    (hsort : List.Sorted (· < ·) rs.sorted_alphabet) (L : ℕ) (v w : ℤ)
    (h0 : 0 ≤ v) (hvw : v < w) (hw : w < (rs.sorted_alphabet.length : ℤ) ^ L) :
    strLtB (int_to_string rs v L) (int_to_string rs w L) = true := by
  have h0w : 0 ≤ w := le_trans h0 (le_of_lt hvw)
  lift v to ℕ using h0
  lift w to ℕ using h0w
  have hvw2 : v < w := by exact_mod_cast hvw
  have hw2 : w < rs.sorted_alphabet.length ^ L := by exact_mod_cast hw
  unfold int_to_string
  rw [intToStrGo_natCast, intToStrGo_natCast]
  exact natStr_lt rs.sorted_alphabet hsort L v w hvw2 hw2

/-- Claim C10: for `0 ≤ v < |alphabet|^L`, `int_to_string v L` is a string of
exactly `L` characters drawn from the sorted alphabet, and for a fixed width
the map is strictly monotone (under the class invariant that the alphabet is
strictly sorted, as `new_rangesplitter` and `add_characters_to_alphabet`
maintain). -/
theorem C10_int_to_string (rs : RangeSplitter)
    (hsort : List.Sorted (· < ·) rs.sorted_alphabet) (L : ℕ) (v : ℤ)
    (h0 : 0 ≤ v) (hv : v < (rs.sorted_alphabet.length : ℤ) ^ L) :
    (int_to_string rs v L).length = L ∧
    (∀ c ∈ int_to_string rs v L, c ∈ rs.sorted_alphabet) ∧
    (∀ w : ℤ, v < w → w < (rs.sorted_alphabet.length : ℤ) ^ L →
      strLtB (int_to_string rs v L) (int_to_string rs w L) = true) := by
  refine ⟨?_, ?_, fun w hvw hw => int_to_string_lt rs hsort L v w h0 hvw hw⟩
  · lift v to ℕ using h0
    simp [int_to_string, intToStrGo_natCast, natStrGo_length]
  · lift v to ℕ using h0
    have hv2 : v < rs.sorted_alphabet.length ^ L := by exact_mod_cast hv
    intro c hc
    rw [int_to_string, intToStrGo_natCast, List.mem_reverse] at hc
    exact natStrGo_mem rs.sorted_alphabet L v hv2 c hc

/-- Witness for C10 on the decimal alphabet at width 2, `v = 15`. -/
theorem C10_witness :
    (int_to_string ⟨"0123456789".toList, "0123456789".toList⟩ 15 2).length = 2 ∧
    (∀ c ∈ int_to_string ⟨"0123456789".toList, "0123456789".toList⟩ 15 2,
      c ∈ (⟨"0123456789".toList, "0123456789".toList⟩ : RangeSplitter).sorted_alphabet) ∧
    (∀ w : ℤ, 15 < w →
      w < ((⟨"0123456789".toList, "0123456789".toList⟩ : RangeSplitter).sorted_alphabet.length : ℤ) ^ 2 →
      strLtB (int_to_string ⟨"0123456789".toList, "0123456789".toList⟩ 15 2)
        (int_to_string ⟨"0123456789".toList, "0123456789".toList⟩ w 2) = true) :=
  C10_int_to_string ⟨"0123456789".toList, "0123456789".toList⟩ (by decide) 2 15 (by decide) (by decide)

/-! ## C6: the candidate split integers -/

/-- Claim C6, corrected: the candidate split integer is
`int(start_int + adjustment·i)` where `adjustment` is the exactified
binary64 quotient `Fraction(range_diff / range_interval)` — Python's
`int(·)` truncates toward zero, it does not round to nearest, and the
quotient `Δ/(n+1)` is rounded by IEEE-754 double division before `Fraction`
makes it exact (see `C6_counterexample` for both departures from the
original claim).  Whenever that double division is exact — hypothesis
`hexact`, saying the mantissa/exponent pair `(s, e)` the division returns
satisfies `s·2^(e−52) = Δ/(n+1)` exactly — every candidate equals
`start_int + ⌊Δ·i/(n+1)⌋`. -/
theorem C6_candidate_floor (rs : RangeSplitter) (opts : GenerateSplitsOpts)
    (hn : 1 ≤ opts.num_splits)
    (hse : opts.min_int_range.start_int ≤ opts.min_int_range.end_int)
    (s e : ℤ)
    (hfd : floatDivZ
      ((opts.min_int_range.end_int : ℤ) - (opts.min_int_range.start_int : ℤ))
      (opts.num_splits + 1) = some (s, e))
    (he : e ≤ 52)
    (hexact : s * (opts.num_splits + 1) =
      ((opts.min_int_range.end_int : ℤ) - (opts.min_int_range.start_int : ℤ)) *
        2 ^ ((52 : ℤ) - e).toNat) :
    generate_splits rs opts = some
      (((List.range opts.num_splits.toNat).map fun j =>
          int_to_string rs (splitPointVal opts.min_int_range.start_int (s, e) (j + 1))
            opts.min_int_range.min_len).filter
        fun ss =>
          (decide (0 < ss.length) && strLtB opts.start_range ss) &&
            (decide (opts.end_range.length = 0) ||
              (decide (0 < ss.length) && strLtB ss opts.end_range))) ∧
    ∀ i : ℕ, splitPointVal opts.min_int_range.start_int (s, e) i =
      (opts.min_int_range.start_int : ℤ) +
        ((opts.min_int_range.end_int : ℤ) - (opts.min_int_range.start_int : ℤ)) * i /
          (opts.num_splits + 1) := by
  have hm : (0 : ℤ) < opts.num_splits + 1 := by omega
  have hΔ : (0 : ℤ) ≤ (opts.min_int_range.end_int : ℤ) - opts.min_int_range.start_int := by
    have h0 : (opts.min_int_range.start_int : ℤ) ≤ opts.min_int_range.end_int := by
      exact_mod_cast hse
    omega
  constructor
  · unfold generate_splits
    rw [hfd]
  · intro i
    by_cases h52 : (52 : ℤ) ≤ e
    · have he52 : e = 52 := le_antisymm he h52
      subst he52
      unfold splitPointVal
      dsimp only
      rw [if_pos (le_refl (52 : ℤ))]
      have hz : ((52 : ℤ) - 52).toNat = 0 := by decide
      rw [hz] at hexact
      rw [show ((52 : ℤ) - 52).toNat = 0 by decide]
      have hex2 : s * (opts.num_splits + 1) =
          (opts.min_int_range.end_int : ℤ) - opts.min_int_range.start_int := by
        simpa using hexact
      have hΔi : ((opts.min_int_range.end_int : ℤ) - opts.min_int_range.start_int) * i =
          s * i * (opts.num_splits + 1) := by rw [← hex2]; ring
      rw [hΔi, Int.mul_ediv_cancel _ (ne_of_gt hm)]
      ring
    · unfold splitPointVal
      dsimp only
      rw [if_neg h52]
      have hP0 : (0 : ℤ) < 2 ^ ((52 : ℤ) - e).toNat := by positivity
      have hsn : 0 ≤ s * (opts.num_splits + 1) := by
        rw [hexact]
        exact mul_nonneg hΔ hP0.le
      have hs0 : 0 ≤ s := by
        by_contra hneg
        push_neg at hneg
        nlinarith
      have hnum0 : 0 ≤ (opts.min_int_range.start_int : ℤ) * 2 ^ ((52 : ℤ) - e).toNat +
          s * i :=
        add_nonneg (mul_nonneg (by positivity) hP0.le) (mul_nonneg hs0 (by positivity))
      unfold truncDiv
      rw [if_pos hnum0]
      rw [add_comm ((opts.min_int_range.start_int : ℤ) * 2 ^ ((52 : ℤ) - e).toNat) (s * i)]
      rw [Int.add_mul_ediv_right _ _ (ne_of_gt hP0)]
      have hq1 : s * i / 2 ^ ((52 : ℤ) - e).toNat * 2 ^ ((52 : ℤ) - e).toNat ≤ s * i :=
        Int.ediv_mul_le _ (ne_of_gt hP0)
      have hq2 : s * i < (s * i / 2 ^ ((52 : ℤ) - e).toNat + 1) * 2 ^ ((52 : ℤ) - e).toNat :=
        Int.lt_ediv_add_one_mul_self _ hP0
      have hkey : ((opts.min_int_range.end_int : ℤ) - opts.min_int_range.start_int) * i *
          2 ^ ((52 : ℤ) - e).toNat = s * i * (opts.num_splits + 1) := by
        calc ((opts.min_int_range.end_int : ℤ) - opts.min_int_range.start_int) * i *
              2 ^ ((52 : ℤ) - e).toNat
            = ((opts.min_int_range.end_int : ℤ) - opts.min_int_range.start_int) *
              2 ^ ((52 : ℤ) - e).toNat * i := by ring
          _ = s * (opts.num_splits + 1) * i := by rw [hexact]
          _ = s * i * (opts.num_splits + 1) := by ring
      have h1 : s * i / 2 ^ ((52 : ℤ) - e).toNat * (opts.num_splits + 1) ≤
          ((opts.min_int_range.end_int : ℤ) - opts.min_int_range.start_int) * i := by
        have h1a : s * i / 2 ^ ((52 : ℤ) - e).toNat * (opts.num_splits + 1) *
            2 ^ ((52 : ℤ) - e).toNat ≤
            ((opts.min_int_range.end_int : ℤ) - opts.min_int_range.start_int) * i *
              2 ^ ((52 : ℤ) - e).toNat := by
          calc s * i / 2 ^ ((52 : ℤ) - e).toNat * (opts.num_splits + 1) *
                2 ^ ((52 : ℤ) - e).toNat
              = s * i / 2 ^ ((52 : ℤ) - e).toNat * 2 ^ ((52 : ℤ) - e).toNat *
                (opts.num_splits + 1) := by ring
            _ ≤ s * i * (opts.num_splits + 1) := mul_le_mul_of_nonneg_right hq1 hm.le
            _ = _ := hkey.symm
        exact le_of_mul_le_mul_right h1a hP0
      have h2 : ((opts.min_int_range.end_int : ℤ) - opts.min_int_range.start_int) * i <
          (s * i / 2 ^ ((52 : ℤ) - e).toNat + 1) * (opts.num_splits + 1) := by
        have h2a : ((opts.min_int_range.end_int : ℤ) - opts.min_int_range.start_int) * i *
            2 ^ ((52 : ℤ) - e).toNat <
            (s * i / 2 ^ ((52 : ℤ) - e).toNat + 1) * (opts.num_splits + 1) *
              2 ^ ((52 : ℤ) - e).toNat := by
          calc ((opts.min_int_range.end_int : ℤ) - opts.min_int_range.start_int) * i *
                2 ^ ((52 : ℤ) - e).toNat
              = s * i * (opts.num_splits + 1) := hkey
            _ < (s * i / 2 ^ ((52 : ℤ) - e).toNat + 1) * 2 ^ ((52 : ℤ) - e).toNat *
                (opts.num_splits + 1) := mul_lt_mul_of_pos_right hq2 hm
            _ = _ := by ring
        exact lt_of_mul_lt_mul_right h2a hP0.le
      have hle : s * i / 2 ^ ((52 : ℤ) - e).toNat ≤
          ((opts.min_int_range.end_int : ℤ) - opts.min_int_range.start_int) * i /
            (opts.num_splits + 1) :=
        (Int.le_ediv_iff_mul_le hm).mpr h1
      have hlt : ((opts.min_int_range.end_int : ℤ) - opts.min_int_range.start_int) * i /
          (opts.num_splits + 1) < s * i / 2 ^ ((52 : ℤ) - e).toNat + 1 :=
        (Int.ediv_lt_iff_lt_mul hm).mpr h2
      omega

/-- Witness for C6 at the repository's `8100 → 9100, 3 splits` vector:
`Δ = 10`, `n + 1 = 4`, the double quotient `2.5` is exact (mantissa
`5629499534213120 = 2.5·2^51`, exponent `1`), so every candidate is the
floor form — in particular the third is `81 + ⌊30/4⌋ = 88`. -/
theorem C6_witness :
    generate_splits ⟨"0123456789".toList, "0123456789".toList⟩ ⟨⟨81, 91, 2⟩, 3, [], []⟩ =
      some (((List.range (3 : ℤ).toNat).map fun j =>
          int_to_string ⟨"0123456789".toList, "0123456789".toList⟩
            (splitPointVal 81 (5629499534213120, 1) (j + 1)) 2).filter
        fun ss =>
          (decide (0 < ss.length) && strLtB ([] : Str) ss) &&
            (decide (([] : Str).length = 0) ||
              (decide (0 < ss.length) && strLtB ss ([] : Str)))) ∧
    ∀ i : ℕ, splitPointVal 81 (5629499534213120, 1) i =
      (81 : ℤ) + ((91 : ℤ) - (81 : ℤ)) * i / (3 + 1) :=
  C6_candidate_floor ⟨"0123456789".toList, "0123456789".toList⟩ ⟨⟨81, 91, 2⟩, 3, [], []⟩
    (by decide) (by decide) 5629499534213120 1 (by decide) (by decide) (by decide)

/-- Counterexample to C6 as stated, in both respects.  Truncation, not
rounding: at the `8100 → 9100, 3 splits` vector the double quotient
`10/4 = 2.5` is exact, and the code yields `81 + int(7.5) = 88` (the
repository's `test_generate_splits` expects `88`) where
`start_int + round(Δ·i/(n+1)) = 89`.  And the arithmetic is not free of
float rounding: for `Δ = 8`, `n = 5`, `i = 3` the binary64 quotient `8/6`
falls below `4/3` (mantissa `6004799503160661`, not a representable `4/3`),
so the code's candidate is `int(3.999…) = 3` while exact rational
arithmetic gives `⌊8·3/6⌋ = 4`. -/
theorem C6_counterexample :
    floatDivZ 10 4 = some (5629499534213120, 1) ∧
    splitPointVal 81 (5629499534213120, 1) 3 = 88 ∧
    (81 : ℤ) + round ((((91 : ℤ) - (81 : ℤ) : ℤ) : ℚ) * (3 : ℚ) / ((3 : ℚ) + 1)) = 89 ∧
    ((88 : ℤ) ≠ 89) ∧
    floatDivZ 8 6 = some (6004799503160661, 0) ∧
    (6004799503160661 : ℤ) * 6 ≠ (8 : ℤ) * 2 ^ 52 ∧
    splitPointVal 0 (6004799503160661, 0) 3 = 3 ∧
    (0 : ℤ) + ((8 : ℤ) * 3) / 6 = 4 := by
  refine ⟨by decide, by decide, ?_, by decide, by decide, by decide, by decide, by decide⟩
  rw [round_eq]
  norm_num

/-! ## Digit-reading lemmas for the minimal-int-range search (shared with C9) -/

theorem getLastD_mem (l : List Char) (d : Char) (h : l ≠ []) : l.getLastD d ∈ l := by
  rw [List.getLastD_eq_getLast?, List.getLast?_eq_getLast l h]
  exact List.getLast_mem h

theorem digitIdx_lt (alpha : List Char) (s : Str) (d : Char)
    (hs : ∀ c ∈ s, c ∈ alpha) (hd : d ∈ alpha) (i : ℕ) :
    digitIdx alpha s d i < alpha.length := by
  unfold digitIdx alphaIdx get_char_or_default
  by_cases hi : i < s.length
  · rw [List.getD_eq_getElem s d hi]
    exact List.indexOf_lt_length.mpr (hs _ (List.getElem_mem hi))
  · rw [List.getD_eq_default s d (by omega)]
    exact List.indexOf_lt_length.mpr hd

theorem rangeInt_succ (alpha : List Char) (s : Str) (d : Char) (L : ℕ) :
    rangeInt alpha s d (L + 1) =
      rangeInt alpha s d L * alpha.length + digitIdx alpha s d L := rfl

theorem rangeInt_lt_pow (alpha : List Char) (s : Str) (d : Char)
    (hdig : ∀ i, digitIdx alpha s d i < alpha.length) :
    ∀ L, rangeInt alpha s d L < alpha.length ^ L := by
  intro L
  induction L with
  | zero => simp [rangeInt]
  | succ m ih =>
    have hd := hdig m
    calc rangeInt alpha s d (m + 1)
        = rangeInt alpha s d m * alpha.length + digitIdx alpha s d m := rfl
      _ < (rangeInt alpha s d m + 1) * alpha.length := by
          rw [Nat.add_mul, Nat.one_mul]; omega
      _ ≤ alpha.length ^ m * alpha.length := Nat.mul_le_mul_right _ ih
      _ = alpha.length ^ (m + 1) := (pow_succ _ _).symm

theorem stmirGo_some_spec (alpha : List Char) (s e : Str) (sd ed : Char) (n : ℤ) :
    ∀ (fuel i : ℕ) (mir : MinimalIntRange),
      stmirGo alpha s e sd ed n fuel i (rangeInt alpha s sd i) (rangeInt alpha e ed i) =
        some mir →
      mir.start_int = rangeInt alpha s sd mir.min_len ∧
      mir.end_int = rangeInt alpha e ed mir.min_len ∧
      n < (mir.end_int : ℤ) - (mir.start_int : ℤ) ∧ 1 ≤ mir.min_len := by
  intro fuel
  induction fuel with
  | zero => intro i mir h; cases h
  | succ f ih =>
    intro i mir h
    simp only [stmirGo] at h
    rw [← rangeInt_succ alpha s sd i, ← rangeInt_succ alpha e ed i] at h
    by_cases hc : n < ((rangeInt alpha e ed (i + 1) : ℤ) - (rangeInt alpha s sd (i + 1) : ℤ))
    · rw [if_pos hc] at h
      injection h with h
      subst h
      exact ⟨rfl, rfl, hc, Nat.succ_le_succ (Nat.zero_le i)⟩
    · rw [if_neg hc] at h
      exact ih (i + 1) mir h

theorem stmir_some_spec (rs : RangeSplitter) (s e : Str) (n : ℤ) (fuel : ℕ)
    (mir : MinimalIntRange) (h : string_to_minimal_int_range rs s e n fuel = some mir) :
    mir.start_int = rangeInt rs.sorted_alphabet s (smallestChar rs) mir.min_len ∧
    mir.end_int = rangeInt rs.sorted_alphabet e
      (if e.length = 0 then largestChar rs else smallestChar rs) mir.min_len ∧
    n < (mir.end_int : ℤ) - (mir.start_int : ℤ) ∧ 1 ≤ mir.min_len := by
  unfold string_to_minimal_int_range at h
  exact stmirGo_some_spec rs.sorted_alphabet s e _ _ n fuel 0 mir h

/-! ## C9: termination of the minimal-int-range search -/

theorem indexOf_lt_of_lt : ∀ (A : List Char), List.Sorted (· < ·) A →
    ∀ a b : Char, a ∈ A → b ∈ A → a < b → A.indexOf a < A.indexOf b := by
  intro A
  induction A with
  | nil => intro _ a b ha; cases ha
  | cons c t ih =>
    intro hsort a b ha hb hab
    rw [List.sorted_cons] at hsort
    by_cases hac : a = c
    · subst hac
      have hbc : a ≠ b := ne_of_lt hab
      rw [List.indexOf_cons_self, List.indexOf_cons_ne _ hbc]
      omega
    · have hat : a ∈ t := (List.mem_cons.mp ha).resolve_left hac
      have hbc : c ≠ b := by
        intro hbc
        rw [← hbc] at hab
        exact absurd (hsort.1 a hat) (lt_asymm hab)
      have hbt : b ∈ t := (List.mem_cons.mp hb).resolve_left fun h => hbc h.symm
      have hca : c ≠ a := fun h => hac h.symm
      rw [List.indexOf_cons_ne _ hca, List.indexOf_cons_ne _ hbc]
      exact Nat.succ_lt_succ (ih hsort.2 a b hat hbt hab)

theorem indexOf_getLastD : ∀ (A : List Char), List.Sorted (· < ·) A → A ≠ [] →
    A.indexOf (A.getLastD 'a') = A.length - 1 := by
  intro A
  induction A with
  | nil => intro _ h; exact absurd rfl h
  | cons c t ih =>
    intro hsort _
    rw [List.sorted_cons] at hsort
    cases t with
    | nil => simp [List.indexOf_cons_self]
    | cons b u =>
      have hne : (b :: u) ≠ [] := by simp
      have hmem : (b :: u).getLastD 'a' ∈ b :: u := getLastD_mem _ _ hne
      have hgl : ((c :: b :: u).getLastD 'a') = ((b :: u).getLastD 'a') := by
        rw [List.getLastD_eq_getLast?, List.getLastD_eq_getLast?,
          List.getLast?_cons_cons]
      have hlt := hsort.1 _ hmem
      have hne2 : c ≠ (b :: u).getLastD 'a' := ne_of_lt hlt
      rw [hgl, List.indexOf_cons_ne _ hne2, ih hsort.2 hne]
      simp [List.length_cons]

theorem getD_mem_alpha (A : List Char) (s : Str) (d : Char)
    (hs : ∀ c ∈ s, c ∈ A) (hd : d ∈ A) (i : ℕ) : s.getD i d ∈ A := by
  by_cases hi : i < s.length
  · rw [List.getD_eq_getElem s d hi]
    exact hs _ (List.getElem_mem hi)
  · rw [List.getD_eq_default s d (by omega)]
    exact hd

theorem smallestChar_mem (rs : RangeSplitter) (h : rs.sorted_alphabet ≠ []) :
    smallestChar rs ∈ rs.sorted_alphabet := by
  cases hA : rs.sorted_alphabet with
  | nil => exact absurd hA h
  | cons a t => simp [smallestChar, hA]

theorem smallestChar_le (rs : RangeSplitter)
    (hsort : List.Sorted (· < ·) rs.sorted_alphabet)
    (c : Char) (hc : c ∈ rs.sorted_alphabet) : smallestChar rs ≤ c := by
  cases hA : rs.sorted_alphabet with
  | nil => rw [hA] at hc; cases hc
  | cons a t =>
    rw [hA] at hc hsort
    rw [List.sorted_cons] at hsort
    simp only [smallestChar, hA, List.getD_cons_zero]
    cases List.mem_cons.mp hc with
    | inl h => rw [h]
    | inr h => exact le_of_lt (hsort.1 c h)

theorem alphaIdx_smallest (rs : RangeSplitter) (h : rs.sorted_alphabet ≠ []) :
    alphaIdx rs.sorted_alphabet (smallestChar rs) = 0 := by
  cases hA : rs.sorted_alphabet with
  | nil => exact absurd hA h
  | cons a t => simp [alphaIdx, smallestChar, hA, List.indexOf_cons_self]

theorem digitIdx_nil (A : List Char) (ed : Char) (i : ℕ) :
    digitIdx A [] ed i = alphaIdx A ed := by
  unfold digitIdx get_char_or_default
  rw [List.getD_nil]

theorem digitIdx_of_le (A : List Char) (s : Str) (d : Char) (i : ℕ)
    (h : s.length ≤ i) : digitIdx A s d i = alphaIdx A d := by
  unfold digitIdx get_char_or_default
  rw [List.getD_eq_default s d h]

theorem diff_succ (A : List Char) (s e : Str) (sd ed : Char) (L : ℕ) :
    (rangeInt A e ed (L + 1) : ℤ) - (rangeInt A s sd (L + 1) : ℤ) =
      (A.length : ℤ) * ((rangeInt A e ed L : ℤ) - (rangeInt A s sd L : ℤ)) +
        ((digitIdx A e ed L : ℤ) - (digitIdx A s sd L : ℤ)) := by
  rw [rangeInt_succ, rangeInt_succ]
  push_cast
  ring

theorem diff_nonneg (A : List Char) (s e : Str) (sd ed : Char)
    (hge : ∀ i, digitIdx A s sd i ≤ digitIdx A e ed i) :
    ∀ L, 0 ≤ (rangeInt A e ed L : ℤ) - (rangeInt A s sd L : ℤ) := by
  intro L
  induction L with
  | zero => simp [rangeInt]
  | succ m ih =>
    rw [diff_succ]
    have h1 : (digitIdx A s sd m : ℤ) ≤ (digitIdx A e ed m : ℤ) := by
      exact_mod_cast hge m
    have h2 : (0 : ℤ) ≤ (A.length : ℤ) *
        ((rangeInt A e ed m : ℤ) - (rangeInt A s sd m : ℤ)) :=
      mul_nonneg (by positivity) ih
    linarith

theorem diff_ge_one (A : List Char) (s e : Str) (sd ed : Char)
    (hk : 2 ≤ A.length)
    (hds : ∀ i, digitIdx A s sd i < A.length)
    (hde : ∀ i, digitIdx A e ed i < A.length)
    (j : ℕ)
    (hbase : 1 ≤ (rangeInt A e ed (j + 1) : ℤ) - (rangeInt A s sd (j + 1) : ℤ)) :
    ∀ L, j + 1 ≤ L → 1 ≤ (rangeInt A e ed L : ℤ) - (rangeInt A s sd L : ℤ) := by
  intro L
  induction L with
  | zero => intro h; omega
  | succ m ih =>
    intro hm
    by_cases hcase : j + 1 ≤ m
    · have hDm := ih hcase
      rw [diff_succ]
      have h1 : (digitIdx A s sd m : ℤ) < (A.length : ℤ) := by exact_mod_cast hds m
      have h2 : (0 : ℤ) ≤ (digitIdx A e ed m : ℤ) := by positivity
      have h3 : (A.length : ℤ) * 1 ≤ (A.length : ℤ) *
          ((rangeInt A e ed m : ℤ) - (rangeInt A s sd m : ℤ)) :=
        mul_le_mul_of_nonneg_left hDm (by positivity)
      linarith
    · have hmj : m = j := by omega
      subst hmj
      exact hbase

theorem diff_pow (A : List Char) (s e : Str) (sd ed : Char)
    (hk : 2 ≤ A.length) (N : ℕ)
    (hN : 1 ≤ (rangeInt A e ed N : ℤ) - (rangeInt A s sd N : ℤ))
    (hge : ∀ L, N ≤ L → digitIdx A s sd L ≤ digitIdx A e ed L) :
    ∀ m : ℕ, (2 : ℤ) ^ m ≤
      (rangeInt A e ed (N + m) : ℤ) - (rangeInt A s sd (N + m) : ℤ) := by
  intro m
  induction m with
  | zero => simpa using hN
  | succ p ih =>
    have hD0 : (0 : ℤ) ≤ (rangeInt A e ed (N + p) : ℤ) -
        (rangeInt A s sd (N + p) : ℤ) := le_trans (by positivity) ih
    rw [show N + (p + 1) = (N + p) + 1 by omega, diff_succ]
    have hdig : (digitIdx A s sd (N + p) : ℤ) ≤ (digitIdx A e ed (N + p) : ℤ) := by
      exact_mod_cast hge (N + p) (by omega)
    have hk2 : (2 : ℤ) ≤ (A.length : ℤ) := by exact_mod_cast hk
    have h3 : (2 : ℤ) * (2 : ℤ) ^ p ≤ (A.length : ℤ) *
        ((rangeInt A e ed (N + p) : ℤ) - (rangeInt A s sd (N + p) : ℤ)) :=
      mul_le_mul hk2 ih (by positivity) (by positivity)
    calc (2 : ℤ) ^ (p + 1) = 2 * 2 ^ p := by ring
      _ ≤ (A.length : ℤ) *
          ((rangeInt A e ed (N + p) : ℤ) - (rangeInt A s sd (N + p) : ℤ)) := h3
      _ ≤ _ := by linarith

theorem rangeInt_eq_of_agree (A : List Char) (s e : Str) (sd ed : Char) (j : ℕ)
    (hag : ∀ i, i < j → digitIdx A s sd i = digitIdx A e ed i) :
    ∀ i, i ≤ j → rangeInt A s sd i = rangeInt A e ed i := by
  intro i
  induction i with
  | zero => intro _; rfl
  | succ p ih =>
    intro hp
    rw [rangeInt_succ, rangeInt_succ, ih (by omega), hag p (by omega)]

theorem padded_first_diff_lt (sd : Char) :
    ∀ (j : ℕ) (s e : Str), strLtB s e = true →
      (∀ c ∈ s, sd ≤ c) → (∀ c ∈ e, sd ≤ c) →
      (∀ i, i < j → s.getD i sd = e.getD i sd) →
      s.getD j sd ≠ e.getD j sd →
      s.getD j sd < e.getD j sd := by
  intro j
  induction j with
  | zero =>
    intro s e hlt hsb heb _ hne
    cases s with
    | nil =>
      cases e with
      | nil => simp [strLtB] at hlt
      | cons b bs =>
        simp only [List.getD_nil, List.getD_cons_zero] at hne ⊢
        exact lt_of_le_of_ne (heb b (List.mem_cons_self b bs)) hne
    | cons a as =>
      cases e with
      | nil => simp [strLtB] at hlt
      | cons b bs =>
        simp only [List.getD_cons_zero] at hne ⊢
        rcases lt_trichotomy a b with h | h | h
        · exact h
        · exact absurd h hne
        · simp only [strLtB] at hlt
          rw [if_neg (lt_asymm h), if_pos h] at hlt
          exact absurd hlt (by decide)
  | succ p ih =>
    intro s e hlt hsb heb hag hne
    cases s with
    | nil =>
      cases e with
      | nil => simp [List.getD_nil] at hne
      | cons b bs =>
        simp only [List.getD_nil, List.getD_cons_succ] at hne ⊢
        by_cases hp : p < bs.length
        · have hmem : bs.getD p sd ∈ bs := by
            rw [List.getD_eq_getElem bs sd hp]
            exact List.getElem_mem hp
          exact lt_of_le_of_ne (heb _ (List.mem_cons_of_mem b hmem)) hne
        · rw [List.getD_eq_default bs sd (by omega)] at hne
          exact absurd rfl hne
    | cons a as =>
      cases e with
      | nil => simp [strLtB] at hlt
      | cons b bs =>
        have hab : a = b := by
          have h0 := hag 0 (Nat.succ_pos p)
          simpa only [List.getD_cons_zero] using h0
        subst hab
        have hlt2 : strLtB as bs = true := by
          simp only [strLtB] at hlt
          rw [if_neg (lt_irrefl a), if_neg (lt_irrefl a)] at hlt
          exact hlt
        simp only [List.getD_cons_succ] at hne ⊢
        refine ih as bs hlt2 (fun c hc => hsb c (List.mem_cons_of_mem _ hc))
          (fun c hc => heb c (List.mem_cons_of_mem _ hc)) ?_ hne
        intro i hi
        have h1 := hag (i + 1) (by omega)
        simpa only [List.getD_cons_succ] using h1

theorem stmirGo_complete (A : List Char) (s e : Str) (sd ed : Char) (n : ℤ) :
    ∀ (fuel i : ℕ),
      n < (rangeInt A e ed (i + fuel + 1) : ℤ) -
        (rangeInt A s sd (i + fuel + 1) : ℤ) →
      ∃ mir, stmirGo A s e sd ed n (fuel + 1) i
        (rangeInt A s sd i) (rangeInt A e ed i) = some mir := by
  intro fuel
  induction fuel with
  | zero =>
    intro i h
    simp only [stmirGo]
    rw [← rangeInt_succ A s sd i, ← rangeInt_succ A e ed i]
    exact ⟨_, by rw [if_pos h]⟩
  | succ f ih =>
    intro i h
    simp only [stmirGo]
    rw [← rangeInt_succ A s sd i, ← rangeInt_succ A e ed i]
    by_cases hc : n < (rangeInt A e ed (i + 1) : ℤ) - (rangeInt A s sd (i + 1) : ℤ)
    · exact ⟨_, by rw [if_pos hc]⟩
    · rw [if_neg hc]
      have h2 : n < (rangeInt A e ed ((i + 1) + f + 1) : ℤ) -
          (rangeInt A s sd ((i + 1) + f + 1) : ℤ) := by
        rw [show (i + 1) + f + 1 = i + (f + 1) + 1 by omega]
        exact h
      exact ih (i + 1) h2

theorem termination_of_growth (A : List Char) (s e : Str) (sd ed : Char) (n : ℤ)
    (hk : 2 ≤ A.length) (N : ℕ)
    (hN : 1 ≤ (rangeInt A e ed N : ℤ) - (rangeInt A s sd N : ℤ))
    (hge : ∀ L, N ≤ L → digitIdx A s sd L ≤ digitIdx A e ed L) :
    (∃ L : ℕ, n < (rangeInt A e ed L : ℤ) - (rangeInt A s sd L : ℤ)) ∧
    ∃ (fuel : ℕ) (mir : MinimalIntRange),
      stmirGo A s e sd ed n fuel 0 0 0 = some mir := by
  have hpow := diff_pow A s e sd ed hk N hN hge
  have h2p : n < (2 : ℤ) ^ (n.toNat + 1) := by
    have h1 : (n.toNat : ℤ) < (2 : ℤ) ^ n.toNat := by
      exact_mod_cast Nat.lt_two_pow n.toNat
    have h2 : (2 : ℤ) ^ n.toNat ≤ (2 : ℤ) ^ (n.toNat + 1) :=
      pow_le_pow_right₀ (by norm_num) (Nat.le_succ n.toNat)
    have h3 : n ≤ (n.toNat : ℤ) := Int.self_le_toNat n
    linarith
  have hL : n < (rangeInt A e ed (N + (n.toNat + 1)) : ℤ) -
      (rangeInt A s sd (N + (n.toNat + 1)) : ℤ) :=
    lt_of_lt_of_le h2p (hpow (n.toNat + 1))
  refine ⟨⟨N + (n.toNat + 1), hL⟩, ?_⟩
  have hL2 : n < (rangeInt A e ed (0 + (N + n.toNat) + 1) : ℤ) -
      (rangeInt A s sd (0 + (N + n.toNat) + 1) : ℤ) := by
    rw [show 0 + (N + n.toNat) + 1 = N + (n.toNat + 1) by omega]
    exact hL
  obtain ⟨mir, hmir⟩ := stmirGo_complete A s e sd ed n (N + n.toNat) 0 hL2
  exact ⟨N + n.toNat + 1, mir, hmir⟩

/-- Claim C9, corrected: the guarantee additionally needs the alphabet to hold
at least two characters (the class invariant being that it is strictly
sorted).  With a one-character alphabet, every padded reading of start and end
coincides, the difference never exceeds `num_splits`, and the `count(0)` loop
of `string_to_minimal_int_range` never returns — see `C9_counterexample`.
Under `2 ≤ |alphabet|`, for inputs surviving `split_range`'s guards whose
characters the alphabet already contains, some finite length `L` makes the
`L`-digit base-`|alphabet|` readings of start and end differ by more than
`num_splits`, and the search returns given enough fuel. -/
theorem C9_termination (rs : RangeSplitter)
    (hsort : List.Sorted (· < ·) rs.sorted_alphabet)
    (hk : 2 ≤ rs.sorted_alphabet.length)
    (s e : Str) (n : ℤ) (hn : 1 ≤ n)
    (hs : ∀ c ∈ s, c ∈ rs.sorted_alphabet)
    (he : ∀ c ∈ e, c ∈ rs.sorted_alphabet)
    (hg1 : e.length = 0 ∨ strLtB s e = true)
    (hg2 : is_range_equal_with_padding rs s e = false) :
    (∃ L : ℕ, n <
      (rangeInt rs.sorted_alphabet e
        (if e.length = 0 then largestChar rs else smallestChar rs) L : ℤ) -
      (rangeInt rs.sorted_alphabet s (smallestChar rs) L : ℤ)) ∧
    ∃ (fuel : ℕ) (mir : MinimalIntRange),
      string_to_minimal_int_range rs s e n fuel = some mir := by
  have hAne : rs.sorted_alphabet ≠ [] := by
    intro h0
    rw [h0] at hk
    simp at hk
  have hsdmem := smallestChar_mem rs hAne
  by_cases hel : e.length = 0
  · obtain rfl : e = [] := List.length_eq_zero.mp hel
    rw [if_pos hel]
    have hde : ∀ i, digitIdx rs.sorted_alphabet [] (largestChar rs) i =
        rs.sorted_alphabet.length - 1 := by
      intro i
      rw [digitIdx_nil]
      unfold alphaIdx largestChar
      exact indexOf_getLastD rs.sorted_alphabet hsort hAne
    have hds_lt : ∀ i, digitIdx rs.sorted_alphabet s (smallestChar rs) i <
        rs.sorted_alphabet.length := fun i => digitIdx_lt _ s _ hs hsdmem i
    have hge1 : ∀ i, digitIdx rs.sorted_alphabet s (smallestChar rs) i ≤
        digitIdx rs.sorted_alphabet [] (largestChar rs) i := by
      intro i
      rw [hde i]
      have h1 := hds_lt i
      omega
    have hnn := diff_nonneg rs.sorted_alphabet s [] (smallestChar rs)
      (largestChar rs) hge1
    have hbase : 1 ≤ (rangeInt rs.sorted_alphabet [] (largestChar rs)
        (s.length + 1) : ℤ) -
        (rangeInt rs.sorted_alphabet s (smallestChar rs) (s.length + 1) : ℤ) := by
      rw [diff_succ]
      have h1 := hnn s.length
      have h2 : (0 : ℤ) ≤ (rs.sorted_alphabet.length : ℤ) *
          ((rangeInt rs.sorted_alphabet [] (largestChar rs) s.length : ℤ) -
            (rangeInt rs.sorted_alphabet s (smallestChar rs) s.length : ℤ)) :=
        mul_nonneg (by positivity) h1
      have h3 : digitIdx rs.sorted_alphabet s (smallestChar rs) s.length = 0 := by
        rw [digitIdx_of_le _ s _ s.length (le_refl _)]
        exact alphaIdx_smallest rs hAne
      rw [h3, hde s.length]
      have h4 : ((rs.sorted_alphabet.length - 1 : ℕ) : ℤ) =
          (rs.sorted_alphabet.length : ℤ) - 1 := by omega
      rw [h4]
      have hk3 : (2 : ℤ) ≤ (rs.sorted_alphabet.length : ℤ) := by exact_mod_cast hk
      push_cast
      linarith
    have hmain := termination_of_growth rs.sorted_alphabet s [] (smallestChar rs)
      (largestChar rs) n hk (s.length + 1) hbase (fun L _ => hge1 L)
    refine ⟨hmain.1, ?_⟩
    obtain ⟨fuel, mir, hmir⟩ := hmain.2
    refine ⟨fuel, mir, ?_⟩
    unfold string_to_minimal_int_range
    rw [if_pos hel]
    exact hmir
  · have hse : strLtB s e = true := hg1.resolve_left hel
    rw [if_neg hel]
    have hex : ∃ i, s.getD i (smallestChar rs) ≠ e.getD i (smallestChar rs) := by
      by_contra hno
      push_neg at hno
      have hall : is_range_equal_with_padding rs s e = true := by
        unfold is_range_equal_with_padding
        rw [if_neg hel, List.all_eq_true]
        intro i _
        have h1 := hno i
        simpa [get_char_or_default] using h1
      rw [hall] at hg2
      exact Bool.noConfusion hg2
    have hj := Nat.find_spec hex
    have hjmin : ∀ i, i < Nat.find hex →
        s.getD i (smallestChar rs) = e.getD i (smallestChar rs) := fun i hi =>
      not_not.mp (Nat.find_min hex hi)
    have hchar : s.getD (Nat.find hex) (smallestChar rs) <
        e.getD (Nat.find hex) (smallestChar rs) :=
      padded_first_diff_lt (smallestChar rs) (Nat.find hex) s e hse
        (fun c hc => smallestChar_le rs hsort c (hs c hc))
        (fun c hc => smallestChar_le rs hsort c (he c hc)) hjmin hj
    have hjump : digitIdx rs.sorted_alphabet s (smallestChar rs) (Nat.find hex) <
        digitIdx rs.sorted_alphabet e (smallestChar rs) (Nat.find hex) := by
      unfold digitIdx alphaIdx get_char_or_default
      exact indexOf_lt_of_lt rs.sorted_alphabet hsort _ _
        (getD_mem_alpha rs.sorted_alphabet s (smallestChar rs) hs hsdmem _)
        (getD_mem_alpha rs.sorted_alphabet e (smallestChar rs) he hsdmem _) hchar
    have hagd : ∀ i, i < Nat.find hex →
        digitIdx rs.sorted_alphabet s (smallestChar rs) i =
        digitIdx rs.sorted_alphabet e (smallestChar rs) i := by
      intro i hi
      unfold digitIdx alphaIdx get_char_or_default
      rw [hjmin i hi]
    have hDj : rangeInt rs.sorted_alphabet s (smallestChar rs) (Nat.find hex) =
        rangeInt rs.sorted_alphabet e (smallestChar rs) (Nat.find hex) :=
      rangeInt_eq_of_agree rs.sorted_alphabet s e (smallestChar rs)
        (smallestChar rs) (Nat.find hex) hagd (Nat.find hex) (le_refl _)
    have hbase : 1 ≤ (rangeInt rs.sorted_alphabet e (smallestChar rs)
        (Nat.find hex + 1) : ℤ) -
        (rangeInt rs.sorted_alphabet s (smallestChar rs) (Nat.find hex + 1) : ℤ) := by
      rw [diff_succ, hDj, sub_self, mul_zero, zero_add]
      have h1 := hjump
      omega
    have hds_lt : ∀ i, digitIdx rs.sorted_alphabet s (smallestChar rs) i <
        rs.sorted_alphabet.length := fun i => digitIdx_lt _ s _ hs hsdmem i
    have hde_lt : ∀ i, digitIdx rs.sorted_alphabet e (smallestChar rs) i <
        rs.sorted_alphabet.length := fun i => digitIdx_lt _ e _ he hsdmem i
    have hinv := diff_ge_one rs.sorted_alphabet s e (smallestChar rs)
      (smallestChar rs) hk hds_lt hde_lt (Nat.find hex) hbase
    have hN : 1 ≤ (rangeInt rs.sorted_alphabet e (smallestChar rs)
        (max (Nat.find hex + 1) (max s.length e.length)) : ℤ) -
        (rangeInt rs.sorted_alphabet s (smallestChar rs)
          (max (Nat.find hex + 1) (max s.length e.length)) : ℤ) :=
      hinv _ (le_max_left _ _)
    have hge : ∀ L, max (Nat.find hex + 1) (max s.length e.length) ≤ L →
        digitIdx rs.sorted_alphabet s (smallestChar rs) L ≤
        digitIdx rs.sorted_alphabet e (smallestChar rs) L := by
      intro L hL
      have h1 : s.length ≤ L :=
        le_trans (le_trans (le_max_left _ _) (le_max_right _ _)) hL
      have h2 : e.length ≤ L :=
        le_trans (le_trans (le_max_right _ _) (le_max_right _ _)) hL
      rw [digitIdx_of_le _ s _ L h1, digitIdx_of_le _ e _ L h2]
    have hmain := termination_of_growth rs.sorted_alphabet s e (smallestChar rs)
      (smallestChar rs) n hk (max (Nat.find hex + 1) (max s.length e.length)) hN hge
    refine ⟨hmain.1, ?_⟩
    obtain ⟨fuel, mir, hmir⟩ := hmain.2
    refine ⟨fuel, mir, ?_⟩
    unfold string_to_minimal_int_range
    rw [if_neg hel]
    exact hmir

/-- Witness for C9 on the alphabet `"ab"` with start `"a"`, end `"b"`,
one split. -/
theorem C9_witness :
    (∃ L : ℕ, (1 : ℤ) <
      (rangeInt (⟨['a', 'b'], ['a', 'b']⟩ : RangeSplitter).sorted_alphabet ['b']
        (if (['b'] : Str).length = 0 then largestChar ⟨['a', 'b'], ['a', 'b']⟩
          else smallestChar ⟨['a', 'b'], ['a', 'b']⟩) L : ℤ) -
      (rangeInt (⟨['a', 'b'], ['a', 'b']⟩ : RangeSplitter).sorted_alphabet ['a']
        (smallestChar ⟨['a', 'b'], ['a', 'b']⟩) L : ℤ)) ∧
    ∃ (fuel : ℕ) (mir : MinimalIntRange),
      string_to_minimal_int_range ⟨['a', 'b'], ['a', 'b']⟩ ['a'] ['b'] 1 fuel = some mir :=
  C9_termination ⟨['a', 'b'], ['a', 'b']⟩ (by decide) (by decide) ['a'] ['b'] 1 (by decide)
    (by decide) (by decide) (by decide) (by decide)

theorem digitIdx_single_a (i : ℕ) : digitIdx ['a'] ['a'] 'a' i = 0 := by
  cases i with
  | zero => rfl
  | succ p =>
    unfold digitIdx get_char_or_default alphaIdx
    rw [List.getD_cons_succ, List.getD_nil]
    simp [List.indexOf_cons_self]

theorem digitIdx_single_nil (i : ℕ) : digitIdx ['a'] [] 'a' i = 0 := by
  unfold digitIdx get_char_or_default alphaIdx
  rw [List.getD_nil]
  simp [List.indexOf_cons_self]

theorem rangeInt_single_a : ∀ L, rangeInt ['a'] ['a'] 'a' L = 0 := by
  intro L
  induction L with
  | zero => rfl
  | succ m ih =>
    rw [rangeInt_succ, ih, digitIdx_single_a m]
    simp

theorem rangeInt_single_nil : ∀ L, rangeInt ['a'] [] 'a' L = 0 := by
  intro L
  induction L with
  | zero => rfl
  | succ m ih =>
    rw [rangeInt_succ, ih, digitIdx_single_nil m]
    simp

theorem stmirGo_single_none : ∀ fuel i,
    stmirGo ['a'] ['a'] [] 'a' 'a' 1 fuel i 0 0 = none := by
  intro fuel
  induction fuel with
  | zero => intro i; rfl
  | succ f ih =>
    intro i
    simp only [stmirGo, digitIdx_single_a, digitIdx_single_nil, Nat.zero_mul,
      Nat.add_zero, Nat.cast_zero]
    rw [if_neg (by norm_num)]
    exact ih (i + 1)

/-- Counterexample to C9 as stated: on the one-character alphabet `"a"` with
start `"a"`, end `""` and one split, no early-return guard fires and all the
characters are in the alphabet, yet at every length the padded readings of
start and end are both zero — the difference never exceeds `num_splits`, and
`string_to_minimal_int_range` never returns no matter the fuel (the source
loops forever). -/
theorem C9_counterexample :
    (∀ c ∈ ((['a'] ++ []) : Str), c ∈ (⟨['a'], ['a']⟩ : RangeSplitter).sorted_alphabet) ∧
    ((([] : Str).length = 0 ∨ strLtB ['a'] [] = true) ∧ (1 : ℤ) ≤ 1) ∧
    is_range_equal_with_padding ⟨['a'], ['a']⟩ ['a'] [] = false ∧
    (∀ L : ℕ, ¬(1 : ℤ) <
      (rangeInt (⟨['a'], ['a']⟩ : RangeSplitter).sorted_alphabet []
        (if ([] : Str).length = 0 then largestChar ⟨['a'], ['a']⟩
          else smallestChar ⟨['a'], ['a']⟩) L : ℤ) -
      (rangeInt (⟨['a'], ['a']⟩ : RangeSplitter).sorted_alphabet ['a']
        (smallestChar ⟨['a'], ['a']⟩) L : ℤ)) ∧
    (∀ fuel : ℕ, string_to_minimal_int_range ⟨['a'], ['a']⟩ ['a'] [] 1 fuel = none) := by
  refine ⟨by decide, by decide, by decide, ?_, ?_⟩
  · intro L
    show ¬(1 : ℤ) < (rangeInt ['a'] [] 'a' L : ℤ) - (rangeInt ['a'] ['a'] 'a' L : ℤ)
    rw [rangeInt_single_nil L, rangeInt_single_a L]
    norm_num
  · intro fuel
    show stmirGo ['a'] ['a'] [] 'a' 'a' 1 fuel 0 0 0 = none
    exact stmirGo_single_none fuel 0

end Dataflux
